import Mathlib

/-!
# coquelicot: file manager and middleware chain

A shallow embedding of `file_manager.go` and `middleware.go`.

* Go strings are Lean strings.  The functions embedded here only concatenate strings,
  compare them, and look at the ASCII bytes `/` and `.`, so working on characters
  instead of bytes makes no difference.
* `nil` pointers and `nil` function values are `none`; a run that dereferences or calls
  one panics, which is the result `none` of the function concerned.
* The standard-library functions the source calls (`strconv.FormatInt`,
  `filepath.Join`, `filepath.Clean`, and the `os` primitives) are
  modelled next to the function that uses them, for the Unix build of the library.
-/

set_option autoImplicit false

namespace Coquelicot

/-! ## middleware.go -/

/-- The type `Adapter` of the source, `func(http.Handler) http.Handler`, over an
arbitrary handler type `H`.  A Go function value may be `nil`, here `none`. -/
abbrev Adapter (H : Type) := Option (H → H)

/-- Calling a function value: calling `nil` panics. -/
def callAdapter {H : Type} (adapter : Adapter H) (h : H) : Option H :=
  match adapter with
  | none => none
  | some f => some (f h)

/-- The function `Adapt` of the source: the `for ... range adapters` loop assigns
`h = adapter(h)` for each adapter in argument order and returns the last `h`.
The result is `none` when the loop panics on a `nil` adapter. -/
def Adapt {H : Type} (h : H) : List (Adapter H) → Option H
  | [] => some h
  | adapter :: rest =>
    match callAdapter adapter h with
    | none => none
    | some h1 => Adapt h1 rest

/-- The nested application `an(...(a2(a1(h)))...)` written from the outside in:
the last adapter of the list is applied to the nesting of the ones before it. -/
def nestedApply {H : Type} (h : H) (adapters : List (Adapter H)) : Option H :=
  adapters.reverse.foldr (fun a inner => inner.bind (callAdapter a)) (some h)

/-! ## file_manager.go: naming scheme -/

/-- The fields of `time.Now()` that `seconds` reads. -/
structure Clock where
  hour : Nat
  minute : Nat
  second : Nat
  deriving DecidableEq, Repr

/-- The function `seconds` of the source, the clock reading being an argument:
`int64(t.Hour()*3600 + t.Minute()*60 + t.Second())`. -/
def seconds (t : Clock) : Int :=
  ((t.hour * 3600 + t.minute * 60 + t.second : Nat) : Int)

/-- The digit table of `strconv`. -/
def digits : List Char := "0123456789abcdefghijklmnopqrstuvwxyz".toList

/-- The byte `digits[k]`. -/
def digitAt (k : Nat) : Char := digits.getD k '?'

/-- The general-case loop of `strconv.formatBits`:
`for u >= b { q := u / b; a[i] = digits[u - q*b]; u = q }` and then
`a[i] = digits[u]`, the digits being written from the right.  The buffer of the
library has 65 bytes, which bounds the number of rounds. -/
def formatBitsLoop (b : Nat) : Nat → Nat → List Char → List Char
  | 0, u, acc => digitAt u :: acc
  | fuel + 1, u, acc =>
    if b ≤ u then
      let q := u / b
      formatBitsLoop b fuel q (digitAt (u - q * b) :: acc)
    else
      digitAt u :: acc

/-- The function `strconv.formatBits` for a base that is neither 10 nor a power of two:
`u` is the `uint64` image of the argument, negated modulo `2^64` when `neg`. -/
def formatBits (u : Nat) (base : Nat) (neg : Bool) : List Char :=
  let u1 := if neg then (2 ^ 64 - u) % 2 ^ 64 else u
  let a := formatBitsLoop base 64 u1 []
  if neg then '-' :: a else a

/-- The function `strconv.FormatInt(i, base)` on an `int64` for such a base. -/
def FormatInt (i : Int) (base : Nat) : String :=
  String.mk (formatBits (i % 2 ^ 64).toNat base (decide (i < 0)))

/-! ## file_manager.go: directory context and managers -/

/-- Modelled from the spec: the type `DirManager` is declared outside the source files at
hand.  The spec gives it two read accessors, the absolute root directory (`Abs()`) and the
public base path (the field `Path`). -/
structure DirManager where
  Root : String
  Path : String
  deriving DecidableEq, Repr

/-- Modelled from the spec: `Abs()` returns the absolute root directory. -/
def DirManager.Abs (dm : DirManager) : String := dm.Root

/-- A `*DirManager`: `none` is the nil pointer, `some a` an address. -/
abbrev DirPtr := Option Nat

/-- The memory holding the directory contexts. -/
abbrev Heap := Nat → Option DirManager

/-- Dereferencing a `*DirManager`; `none` is the nil-pointer panic. -/
def deref (heap : Heap) (p : DirPtr) : Option DirManager :=
  match p with
  | none => none
  | some a => heap a

/-- Writing a directory context at an address. -/
def Heap.store (heap : Heap) (a : Nat) (dm : DirManager) : Heap :=
  fun b => if b = a then some dm else heap b

/-- The struct `FileBaseManager` of the source. -/
structure FileBaseManager where
  Dir : DirPtr
  Version : String
  Filename : String
  deriving DecidableEq, Repr

/-- Modelled from the spec: the struct types `FileImageManager` and `FileDefaultManager`
are declared outside the source files at hand; the spec has them as the image and the
default variant, which share the base manager.  A value of the interface type
`FileManager` is `nil`, or one of the two variants, each embedding the freshly allocated
base manager (held here by value). -/
inductive FileManager where
  | nil
  | FileImageManager (fbm : FileBaseManager)
  | FileDefaultManager (fbm : FileBaseManager)
  deriving DecidableEq, Repr

/-- The base manager embedded in a manager value. -/
def FileManager.base : FileManager → Option FileBaseManager
  | .nil => none
  | .FileImageManager fbm => some fbm
  | .FileDefaultManager fbm => some fbm

/-- Whether the value is the image variant. -/
def FileManager.isImage : FileManager → Bool
  | .FileImageManager _ => true
  | _ => false

/-- Whether the value is the default variant. -/
def FileManager.isDefault : FileManager → Bool
  | .FileDefaultManager _ => true
  | _ => false

/-- The function `NewFileManager` of the source.  Both arms of the `switch` return, so the
`return nil` that follows it in the source is never reached. -/
def NewFileManager (dm : DirPtr) (mime_base version : String) : FileManager :=
  let fbm : FileBaseManager := { Dir := dm, Version := version, Filename := "" }
  if mime_base = "image" then
    FileManager.FileImageManager fbm
  else
    FileManager.FileDefaultManager fbm

/-- The method `SetFilename` of the source, the clock reading being an argument. -/
def FileBaseManager.SetFilename (fbm : FileBaseManager) (t : Clock) (ext : String) :
    FileBaseManager :=
  let salt := FormatInt (seconds t) 36
  { fbm with Filename := fbm.Version ++ "-" ++ salt ++ ext }

/-! ## path/filepath (Unix) -/

/-- The backtracking loop of `filepath.Clean` on a `..` element, started at `w` after the
first `out.w--`: `for out.w > dotdot && !IsPathSeparator(out.index(out.w)) { out.w-- }`. -/
def cleanBacktrack (buf : List Char) (dotdot : Nat) : Nat → Nat
  | 0 => 0
  | w + 1 =>
    if dotdot < w + 1 ∧ buf.getD (w + 1) '/' ≠ '/' then cleanBacktrack buf dotdot w
    else w + 1

/-- Whether the element that starts here has ended: `r == n` or a separator at `r`. -/
def atElemEnd : List Char → Bool
  | [] => true
  | c :: _ => c == '/'

/-- The main loop of `filepath.Clean`: `rest` is the unread part of the path, `buf` the
bytes written so far (`out.w` is its length), `dotdot` the index where `..` must stop.
Every round reads at least one byte, so a fuel of the length of the path is enough. -/
def cleanLoop (rooted : Bool) : Nat → List Char → List Char → Nat → List Char
  | 0, _, buf, _ => buf
  | _ + 1, [], buf, _ => buf
  | fuel + 1, c :: t, buf, dotdot =>
    if c = '/' then
      cleanLoop rooted fuel t buf dotdot
    else if c = '.' ∧ atElemEnd t then
      cleanLoop rooted fuel t buf dotdot
    else if c = '.' ∧ t.head? = some '.' ∧ atElemEnd t.tail then
      if dotdot < buf.length then
        cleanLoop rooted fuel t.tail
          (buf.take (cleanBacktrack buf dotdot (buf.length - 1))) dotdot
      else if ¬ rooted then
        let buf1 := (if 0 < buf.length then buf ++ ['/'] else buf) ++ ['.', '.']
        cleanLoop rooted fuel t.tail buf1 buf1.length
      else
        cleanLoop rooted fuel t.tail buf dotdot
    else
      let buf1 :=
        if (rooted ∧ buf.length ≠ 1) ∨ (¬ rooted ∧ buf.length ≠ 0) then buf ++ ['/'] else buf
      cleanLoop rooted fuel ((c :: t).dropWhile (fun x => x != '/'))
        (buf1 ++ (c :: t).takeWhile (fun x => x != '/')) dotdot

/-- The function `filepath.Clean`. -/
def Clean (path : String) : String :=
  let p := path.toList
  if p = [] then "."
  else
    let rooted : Bool := p.head? == some '/'
    let out :=
      if rooted then cleanLoop rooted p.length p.tail ['/'] 1
      else cleanLoop rooted p.length p [] 0
    if out.length = 0 then "." else String.mk out

/-- The function `filepath.Join`: the elements from the first non-empty one on are joined
with the separator and cleaned; the result is empty when every element is empty. -/
def Join : List String → String
  | [] => ""
  | e :: rest => if e ≠ "" then Clean (String.intercalate "/" (e :: rest)) else Join rest

/-- The method `Filepath` of the source; `none` when `fbm.Dir` is nil. -/
def FileBaseManager.Filepath (heap : Heap) (fbm : FileBaseManager) : Option String :=
  match deref heap fbm.Dir with
  | none => none
  | some dm => some (Join [dm.Abs, fbm.Filename])

/-- The method `Url` of the source; `none` when `fbm.Dir` is nil. -/
def FileBaseManager.Url (heap : Heap) (fbm : FileBaseManager) : Option String :=
  match deref heap fbm.Dir with
  | none => none
  | some dm => some (Join [dm.Path, fbm.Filename])

/-! ## The filesystem under the `os` calls of `copyFile`

A flat namespace: `names` binds a path to an inode number, several paths may be bound to
one inode (hard links), and `inodes` holds the mode and the bytes of each inode.  An inode
whose mode has the bit `ModeSymlink` is a symbolic link to the path `target`.  `os.Stat`,
`os.Open` and `os.Create` follow symbolic links, at most 40 of them in a row, and
`os.Remove` removes the name it is given.  Every primitive may also fail for a reason of
the environment (permissions, a full disk, a device error): `Env` says which ones do. -/

/-- The type `os.FileMode`, a `uint32`. -/
abbrev FileMode := Nat

def ModeDir : FileMode := 2 ^ 31
def ModeSymlink : FileMode := 2 ^ 27
def ModeDevice : FileMode := 2 ^ 26
def ModeNamedPipe : FileMode := 2 ^ 25
def ModeSocket : FileMode := 2 ^ 24
def ModeCharDevice : FileMode := 2 ^ 21
def ModeIrregular : FileMode := 2 ^ 19

/-- The mask `os.ModeType`. -/
def ModeType : FileMode :=
  ModeDir ||| ModeSymlink ||| ModeNamedPipe ||| ModeSocket ||| ModeDevice |||
    ModeCharDevice ||| ModeIrregular

/-- The method `FileMode.IsRegular`: `m&ModeType == 0`. -/
def IsRegular (m : FileMode) : Bool := m &&& ModeType == 0

/-- The method `FileMode.IsDir`: `m&ModeDir != 0`. -/
def IsDir (m : FileMode) : Bool := m &&& ModeDir != 0

/-- Whether the mode is that of a symbolic link: `m&ModeSymlink != 0`. -/
def IsSymlink (m : FileMode) : Bool := m &&& ModeSymlink != 0

/-- An inode: its mode, its bytes, and for a symbolic link the path it points to. -/
structure Inode where
  mode : FileMode
  bytes : List Nat
  target : String := ""
  deriving DecidableEq, Repr

/-- The state of the filesystem. -/
structure FS where
  names : List (String × Nat)
  inodes : List (Nat × Inode)
  deriving DecidableEq, Repr

/-- The error numbers of the model. -/
inductive Errno where
  | ENOENT | EACCES | ESTALE | ENOSPC | EISDIR | EROFS | EMFILE | EDQUOT | ELOOP
  deriving DecidableEq, Repr

/-- A Go `error` value: an `*os.PathError`, or the value built by `fmt.Errorf` from the
format of the source and its two arguments (a file name and a mode). -/
inductive GoError where
  | PathError (op : String) (path : String) (errno : Errno)
  | Errorf (format : String) (name : String) (mode : FileMode)
  deriving DecidableEq, Repr

/-- The function `os.IsNotExist`. -/
def IsNotExist : GoError → Bool
  | .PathError _ _ .ENOENT => true
  | _ => false

/-- The environment of a run: the umask, and for each primitive the error it fails with,
if it does.  For the streaming copy the failure comes after a number of bytes have reached
the destination. -/
structure Env where
  umask : Nat
  stat : String → Option Errno
  openFile : String → Option Errno
  create : String → Option Errno
  copy : Option (Nat × Errno)
  sync : Option Errno
  closeOut : Option Errno
  closeIn : Option Errno
  remove : String → Option Errno

/-- The inode a name is bound to, with its number; symbolic links are not followed. -/
def FS.node (fs : FS) (p : String) : Option (Nat × Inode) :=
  match fs.names.lookup p with
  | none => none
  | some i =>
    match fs.inodes.lookup i with
    | none => none
    | some nd => some (i, nd)

/-- The path a name points to when it is bound to a symbolic link. -/
def FS.linkTarget (fs : FS) (p : String) : Option String :=
  match fs.node p with
  | none => none
  | some (_, nd) => if IsSymlink nd.mode then some nd.target else none

/-- Following symbolic links from a path, at most `n` of them: the path reached, which is
not a link, or `none` when more links than that are met. -/
def followLinks (linkTarget : String → Option String) : Nat → String → Option String
  | 0, p =>
    match linkTarget p with
    | none => some p
    | some _ => none
  | n + 1, p =>
    match linkTarget p with
    | none => some p
    | some q => followLinks linkTarget n q

/-- The path reached from a path by following symbolic links, `none` when more than 40
links are met in a row. -/
def FS.final (fs : FS) (p : String) : Option String := followLinks fs.linkTarget 40 p

/-- The inode a path resolves to, symbolic links followed, with its number. -/
def FS.resolve (fs : FS) (p : String) : Option (Nat × Inode) :=
  match fs.final p with
  | none => none
  | some q => fs.node q

/-- An inode number above every number in use. -/
def FS.fresh (fs : FS) : Nat :=
  (fs.inodes.map Prod.fst ++ fs.names.map Prod.snd).foldr max 0 + 1

/-- A new name bound to a new inode. -/
def FS.addFile (fs : FS) (q : String) (i : Nat) (nd : Inode) : FS :=
  { names := (q, i) :: fs.names, inodes := (i, nd) :: fs.inodes }

/-- Replacing the inode of a given number. -/
def setInode (i : Nat) (nd : Inode) : List (Nat × Inode) → List (Nat × Inode)
  | [] => []
  | (j, old) :: rest => if j = i then (j, nd) :: rest else (j, old) :: setInode i nd rest

/-- The type `os.FileInfo` as far as the source reads it. -/
structure FileInfo where
  Name : String
  Mode : FileMode
  ino : Nat
  deriving DecidableEq, Repr

/-- An open file, `*os.File`: its name and the inode it is open on. -/
structure File where
  name : String
  ino : Nat
  deriving DecidableEq, Repr

/-- The first loop of `basename` in package `os`, on the reversed name: trailing slashes
are removed while more than one byte is left. -/
def stripSlashes : List Char → List Char
  | [] => []
  | [c] => [c]
  | c :: d :: rest => if c = '/' then stripSlashes (d :: rest) else c :: d :: rest

/-- The function `basename` of package `os`, which fills `FileInfo.Name()`. -/
def basename (name : String) : String :=
  match stripSlashes name.toList.reverse with
  | [] => ""
  | c :: rest => String.mk ((rest.takeWhile (fun x => x != '/')).reverse ++ [c])

/-- The function `os.Stat`: it describes what the path resolves to, links followed. -/
def osStat (env : Env) (fs : FS) (p : String) : Except GoError FileInfo :=
  match env.stat p with
  | some e => .error (.PathError "stat" p e)
  | none =>
    match fs.final p with
    | none => .error (.PathError "stat" p .ELOOP)
    | some q =>
      match fs.node q with
      | none => .error (.PathError "stat" p .ENOENT)
      | some (i, nd) => .ok { Name := basename p, Mode := nd.mode, ino := i }

/-- The function `os.SameFile`: same device and inode. -/
def SameFile (fi1 fi2 : FileInfo) : Bool := fi1.ino == fi2.ino

/-- The function `os.Open`: the file is open on what the path resolves to. -/
def osOpen (env : Env) (fs : FS) (p : String) : Except GoError File :=
  match env.openFile p with
  | some e => .error (.PathError "open" p e)
  | none =>
    match fs.final p with
    | none => .error (.PathError "open" p .ELOOP)
    | some q =>
      match fs.node q with
      | none => .error (.PathError "open" p .ENOENT)
      | some (i, _) => .ok { name := p, ino := i }

/-- The function `os.Create`, `OpenFile(name, O_RDWR|O_CREATE|O_TRUNC, 0666)`, links
followed: an absent path gets a new empty regular inode, a regular file is truncated, a
directory is refused, anything else is opened as it is. -/
def osCreate (env : Env) (fs : FS) (p : String) : Except GoError (File × FS) :=
  match env.create p with
  | some e => .error (.PathError "open" p e)
  | none =>
    match fs.final p with
    | none => .error (.PathError "open" p .ELOOP)
    | some q =>
      match fs.node q with
      | none =>
        let i := fs.fresh
        let nd : Inode := { mode := 0o666 &&& (0o777 ^^^ (env.umask % 512)), bytes := [] }
        .ok ({ name := p, ino := i }, fs.addFile q i nd)
      | some (i, nd) =>
        if IsDir nd.mode then .error (.PathError "open" p .EISDIR)
        else if IsRegular nd.mode then
          .ok ({ name := p, ino := i },
               { fs with inodes := setInode i { nd with bytes := [] } fs.inodes })
        else .ok ({ name := p, ino := i }, fs)

/-- Writing `data` from offset zero into a file just opened by `osCreate`: a regular file
then holds `data`, anything else swallows it. -/
def writeAll (fs : FS) (out : File) (data : List Nat) : FS :=
  match fs.inodes.lookup out.ino with
  | none => fs
  | some nd =>
    if IsRegular nd.mode then
      { fs with inodes := setInode out.ino { nd with bytes := data } fs.inodes }
    else fs

/-- The function `io.Copy(out, in)`: the bytes of `in` are streamed into `out` until the
end of the file; when the environment fails the copy after `n` bytes, those `n` bytes have
been written. -/
def ioCopy (env : Env) (fs : FS) (out inh : File) : Option GoError × FS :=
  match fs.inodes.lookup inh.ino with
  | none => (some (.PathError "read" inh.name .ESTALE), fs)
  | some nd =>
    if IsDir nd.mode then (some (.PathError "write" out.name .EISDIR), fs)
    else
      match env.copy with
      | some (n, e) => (some (.PathError "write" out.name e), writeAll fs out (nd.bytes.take n))
      | none => (none, writeAll fs out nd.bytes)

/-- The method `File.Sync`. -/
def fileSync (env : Env) (f : File) : Option GoError :=
  match env.sync with
  | some e => some (.PathError "sync" f.name e)
  | none => none

/-- The method `File.Close`, with the failure the environment has for this file. -/
def fileClose (fault : Option Errno) (f : File) : Option GoError :=
  match fault with
  | some e => some (.PathError "close" f.name e)
  | none => none

/-- The function `os.Remove`: the name itself is unbound, a link is not followed, and the
inode goes with its last name. -/
def osRemove (env : Env) (fs : FS) (p : String) : Option GoError × FS :=
  match env.remove p with
  | some e => (some (.PathError "remove" p e), fs)
  | none =>
    match fs.names.lookup p with
    | none => (some (.PathError "remove" p .ENOENT), fs)
    | some i =>
      let names1 := fs.names.filter (fun e => e.1 != p)
      if names1.any (fun e => e.2 == i) then (none, { fs with names := names1 })
      else (none, { names := names1, inodes := fs.inodes.filter (fun e => e.1 != i) })

/-! ## file_manager.go: the safe file mover -/

/-- The frame of `copyFileContents` while its deferred calls run: `result` is the unnamed
result, already set by the `return` statement, and `err` is the local variable declared by
`var err error`. -/
structure Frame where
  result : Option GoError
  err : Option GoError
  deriving DecidableEq, Repr

/-- The deferred closure of `copyFileContents`:
`cerr := out.Close(); if err == nil { err = cerr }`.  It assigns the local variable. -/
def deferredClose (env : Env) (out : File) (fr : Frame) : Frame :=
  let cerr := fileClose env.closeOut out
  if fr.err = none then { fr with err := cerr } else fr

/-- The statement `return err` of `copyFileContents` once both `defer`s are registered:
the value of `err` is copied into the result, then the deferred calls run, last
registered first (the closure closing `out`, then `in.Close()`, whose value is dropped). -/
def returnAfterCreate (env : Env) (inh out : File) (err : Option GoError) : Option GoError :=
  let fr : Frame := { result := err, err := err }
  let fr1 := deferredClose env out fr
  let _ := fileClose env.closeIn inh
  fr1.result

/-- The method `copyFileContents` of the source. -/
def copyFileContents (env : Env) (fs : FS) (src dst : String) : Option GoError × FS :=
  match osOpen env fs src with
  | .error err => (some err, fs)
  | .ok inh =>
    match osCreate env fs dst with
    | .error err =>
      let _ := fileClose env.closeIn inh
      (some err, fs)
    | .ok (out, fs1) =>
      match ioCopy env fs1 out inh with
      | (some err, fs2) => (returnAfterCreate env inh out (some err), fs2)
      | (none, fs2) =>
        let err := fileSync env out
        (returnAfterCreate env inh out err, fs2)

/-- The tail of `copyFile`: `copyFileContents`, and `os.Remove(src)` when it returned nil. -/
def copyThenRemove (env : Env) (fs : FS) (src dst : String) : Option GoError × FS :=
  match copyFileContents env fs src dst with
  | (some err, fs1) => (some err, fs1)
  | (none, fs1) => osRemove env fs1 src

/-- The method `copyFile` of the source. -/
def copyFile (env : Env) (fs : FS) (src dst : String) : Option GoError × FS :=
  match osStat env fs src with
  | .error err => (some err, fs)
  | .ok sfi =>
    if ¬ IsRegular sfi.Mode then
      (some (.Errorf "CopyFile: non-regular source file %s (%q)" sfi.Name sfi.Mode), fs)
    else
      match osStat env fs dst with
      | .error err =>
        if ¬ IsNotExist err then (some err, fs)
        else copyThenRemove env fs src dst
      | .ok dfi =>
        if ¬ IsRegular dfi.Mode then
          (some (.Errorf "CopyFile: non-regular destination file %s (%q)" dfi.Name dfi.Mode),
            fs)
        else if SameFile sfi dfi then (none, fs)
        else copyThenRemove env fs src dst

/-! ## Definitions that state the properties -/

/-- The value of a base-36 digit, `none` for any other character. -/
def digitValue (c : Char) : Option Nat :=
  if '0' ≤ c ∧ c ≤ '9' then some (c.toNat - 48)
  else if 'a' ≤ c ∧ c ≤ 'z' then some (c.toNat - 87)
  else none

/-- Whether a character is one of `0-9a-z`. -/
def isBase36 (c : Char) : Bool := ('0' ≤ c ∧ c ≤ '9') ∨ ('a' ≤ c ∧ c ≤ 'z')

/-- One step of decoding, most significant digit first. -/
def decodeStep (acc : Option Nat) (c : Char) : Option Nat :=
  match acc, digitValue c with
  | some a, some d => some (a * 36 + d)
  | _, _ => none

/-- Decoding a base-36 numeral; the empty string is not a numeral. -/
def decodeBase36 (s : String) : Option Nat :=
  match s.toList with
  | [] => none
  | cs => cs.foldl decodeStep (some 0)

/-- A path accessor fails when it panics or returns the empty string. -/
def failsFast (r : Option String) : Bool :=
  match r with
  | none => true
  | some s => s == ""

/-- A plain file name: non-empty, without separator, and neither `.` nor `..`. -/
def isPlainName (s : String) : Bool :=
  !s.toList.isEmpty && !s.toList.contains '/' && s != "." && s != ".."

/-- The names joined by single separators. -/
def joinNames : List String → String
  | [] => ""
  | [c] => c
  | c :: d :: rest => c ++ "/" ++ joinNames (d :: rest)

/-- The path made of the given names, from the root when `rooted`. -/
def mkPath (rooted : Bool) (names : List String) : String :=
  (if rooted then "/" else "") ++ joinNames names

/-- A directory context used in the examples. -/
def demoDir : DirManager := { Root := "/srv/files", Path := "/files" }

/-- A heap holding `demoDir` at address 0. -/
def demoHeap : Heap := fun a => if a = 0 then some demoDir else none

/-- A clock reading used in the examples: 23:59:59. -/
def demoClock : Clock := { hour := 23, minute := 59, second := 59 }

/-- Whether a run of `copyFile` gets past its checks and calls `copyFileContents`: the
source is reported as a regular file, and the destination is reported as not existing or
as a regular file that is not the same file as the source. -/
def reachesCopy (env : Env) (fs : FS) (src dst : String) : Bool :=
  match osStat env fs src with
  | .error _ => false
  | .ok sfi =>
    IsRegular sfi.Mode &&
      match osStat env fs dst with
      | .error err => IsNotExist err
      | .ok dfi => IsRegular dfi.Mode && !SameFile sfi dfi

/-- The error of the first of the four steps of `copyFileContents` that fails, if one
does: opening `src`, creating `dst`, the streaming copy, the sync. -/
def firstStepError (env : Env) (fs : FS) (src dst : String) : Option GoError :=
  match osOpen env fs src with
  | .error err => some err
  | .ok inh =>
    match osCreate env fs dst with
    | .error err => some err
    | .ok (out, fs1) =>
      match (ioCopy env fs1 out inh).1 with
      | some err => some err
      | none => fileSync env out

/-- An environment in which no primitive fails, with umask 022. -/
def demoEnv : Env :=
  { umask := 0o022, stat := fun _ => none, openFile := fun _ => none,
    create := fun _ => none, copy := none, sync := none, closeOut := none,
    closeIn := none, remove := fun _ => none }

/-- A filesystem used in the examples: an uploaded file with a second hard link, an older
stored file, and the storage directory. -/
def demoFS : FS :=
  { names := [("/tmp/up123", 1), ("/srv/files/old.bin", 2), ("/srv/files", 3),
      ("/tmp/link", 1)],
    inodes := [(1, { mode := 0o644, bytes := [10, 20, 30] }),
      (2, { mode := 0o600, bytes := [7] }),
      (3, { mode := ModeDir ||| 0o755, bytes := [] })] }

/-- The example filesystem after the upload has been moved to a new name. -/
def demoFSMoved : FS :=
  { names := [("/srv/files/orig-1unz.bin", 4), ("/srv/files/old.bin", 2), ("/srv/files", 3),
      ("/tmp/link", 1)],
    inodes := [(4, { mode := 0o644, bytes := [10, 20, 30] }),
      (1, { mode := 0o644, bytes := [10, 20, 30] }),
      (2, { mode := 0o600, bytes := [7] }),
      (3, { mode := ModeDir ||| 0o755, bytes := [] })] }

/-- A filesystem in which the upload is reached through the symbolic link `/tmp/uplink`. -/
def demoFSLink : FS :=
  { names := [("/tmp/up123", 1), ("/tmp/uplink", 5), ("/srv/files", 3)],
    inodes := [(1, { mode := 0o644, bytes := [10, 20, 30] }),
      (5, { mode := ModeSymlink ||| 0o777, bytes := [], target := "/tmp/up123" }),
      (3, { mode := ModeDir ||| 0o755, bytes := [] })] }

/-- The filesystem `demoFSLink` after `copyFile` on the link: the bytes of the upload are
in the new file, the link is gone, the upload is still there. -/
def demoFSLinkMoved : FS :=
  { names := [("/srv/files/orig-1unz.bin", 6), ("/tmp/up123", 1), ("/srv/files", 3)],
    inodes := [(6, { mode := 0o644, bytes := [10, 20, 30] }),
      (1, { mode := 0o644, bytes := [10, 20, 30] }),
      (3, { mode := ModeDir ||| 0o755, bytes := [] })] }

/-- The environment of the examples, except that the disk fills up after two bytes of the
streaming copy. -/
def demoEnvDiskFull : Env := { demoEnv with copy := some (2, Errno.ENOSPC) }

/-- The environment of the examples, except that closing the destination fails. -/
def demoEnvCloseFails : Env := { demoEnv with closeOut := some Errno.EDQUOT }

/-! ## Theorems: middleware chain -/

theorem Adapt_append {H : Type} (as bs : List (Adapter H)) :
    ∀ h : H, Adapt h (as ++ bs) = (Adapt h as).bind (fun h1 => Adapt h1 bs) := by
  induction as with
  | nil => intro h; rfl
  | cons a rest ih =>
    intro h
    cases a with
    | none => rfl
    | some f => exact ih (f h)

theorem Adapt_snoc {H : Type} (as : List (Adapter H)) (a : Adapter H) (h : H) :
    Adapt h (as ++ [a]) = (Adapt h as).bind (callAdapter a) := by
  rw [Adapt_append]
  congr 1
  funext h1
  cases a with
  | none => rfl
  | some f => rfl

theorem Adapt_eq_nestedApply {H : Type} (as : List (Adapter H)) (h : H) :
    Adapt h as = nestedApply h as := by
  induction as using List.reverseRecOn with
  | nil => rfl
  | append_singleton l a ih =>
    rw [Adapt_snoc, ih]
    simp [nestedApply]

theorem Adapt_total {H : Type} (fs : List (H → H)) :
    ∀ h : H, Adapt h (fs.map some) = some (fs.foldl (fun x f => f x) h) := by
  induction fs with
  | nil => intro h; rfl
  | cons f rest ih => intro h; exact ih (f h)

/-- C10: `Adapt(h, a1, ..., an)` is the nested application `an(...(a2(a1(h)))...)`, a left
fold over the adapters in argument order (first adapter innermost, last outermost);
with no adapter it returns `h` itself; and adapting with `as ++ bs` is adapting with `as`
and then adapting the result with `bs`.  A nil adapter makes both sides panic alike. -/
theorem Adapt_is_left_fold {H : Type} (h : H) (as bs : List (Adapter H))
    (fs : List (H → H)) (a1 a2 : H → H) :
    Adapt h as = nestedApply h as ∧
      Adapt h (fs.map some) = some (fs.foldl (fun x f => f x) h) ∧
      Adapt h [some a1, some a2] = some (a2 (a1 h)) ∧
      Adapt h ([] : List (Adapter H)) = some h ∧
      Adapt h (as ++ bs) = (Adapt h as).bind (fun h1 => Adapt h1 bs) :=
  ⟨Adapt_eq_nestedApply as h, Adapt_total fs h, rfl, rfl, Adapt_append as bs h⟩

/-! ## Theorems: factory -/

theorem NewFileManager_base (dm : DirPtr) (mime_base version : String) :
    (NewFileManager dm mime_base version).base =
      some { Dir := dm, Version := version, Filename := "" } := by
  unfold NewFileManager
  by_cases h : mime_base = "image"
  · simp [h, FileManager.base]
  · simp [h, FileManager.base]

/-- C3: `NewFileManager` never returns nil; the result is the image variant exactly when
`mime_base` is `"image"` and the default variant for every other string; the embedded
base manager has the given directory context and version and an empty `Filename`. -/
theorem NewFileManager_dispatch (dm : DirPtr) (mime_base version : String) :
    NewFileManager dm mime_base version ≠ FileManager.nil ∧
      ((NewFileManager dm mime_base version).isImage = true ↔ mime_base = "image") ∧
      ((NewFileManager dm mime_base version).isDefault = true ↔ mime_base ≠ "image") ∧
      (NewFileManager dm "" version).isDefault = true ∧
      (NewFileManager dm mime_base version).base =
        some { Dir := dm, Version := version, Filename := "" } := by
  unfold NewFileManager
  by_cases h : mime_base = "image"
  · simp [h, FileManager.isImage, FileManager.isDefault, FileManager.base]
  · simp [h, FileManager.isImage, FileManager.isDefault, FileManager.base]

/-! ## Theorems: naming scheme -/

theorem digitAt_spec :
    ∀ k, k < 36 → isBase36 (digitAt k) = true ∧ digitValue (digitAt k) = some k := by
  decide

theorem decodeStep_digitAt (a k : Nat) (hk : k < 36) :
    decodeStep (some a) (digitAt k) = some (a * 36 + k) := by
  unfold decodeStep
  rw [(digitAt_spec k hk).2]

theorem formatBitsLoop_spec (fuel : Nat) :
    ∀ (u : Nat) (acc : List Char), u < 36 ^ (fuel + 1) →
      ∃ ds : List Char, formatBitsLoop 36 fuel u acc = ds ++ acc ∧ ds ≠ [] ∧
        (∀ c ∈ ds, isBase36 c = true) ∧ ds.foldl decodeStep (some 0) = some u := by
  induction fuel with
  | zero =>
    intro u acc hu
    have hu36 : u < 36 := by simpa using hu
    refine ⟨[digitAt u], rfl, by simp, ?_, ?_⟩
    · intro c hc
      rw [List.mem_singleton.1 hc]; exact (digitAt_spec u hu36).1
    · rw [List.foldl_cons, List.foldl_nil, decodeStep_digitAt 0 u hu36]; simp
  | succ n ih =>
    intro u acc hu
    by_cases hb : 36 ≤ u
    · have hq : u / 36 < 36 ^ (n + 1) := by
        rw [Nat.div_lt_iff_lt_mul (by norm_num)]
        calc u < 36 ^ (n + 1 + 1) := hu
          _ = 36 ^ (n + 1) * 36 := by ring
      have hr : u - u / 36 * 36 < 36 := by omega
      obtain ⟨ds, h1, _, h3, h4⟩ := ih (u / 36) (digitAt (u - u / 36 * 36) :: acc) hq
      refine ⟨ds ++ [digitAt (u - u / 36 * 36)], ?_, by simp, ?_, ?_⟩
      · rw [formatBitsLoop, if_pos hb]
        simp only [h1, List.append_assoc, List.singleton_append]
      · intro c hc
        rcases List.mem_append.1 hc with h | h
        · exact h3 c h
        · rw [List.mem_singleton.1 h]; exact (digitAt_spec _ hr).1
      · rw [List.foldl_append, h4, List.foldl_cons, List.foldl_nil, decodeStep_digitAt _ _ hr]
        congr 1
        omega
    · have hu36 : u < 36 := by omega
      refine ⟨[digitAt u], ?_, by simp, ?_, ?_⟩
      · rw [formatBitsLoop, if_neg hb]; rfl
      · intro c hc
        rw [List.mem_singleton.1 hc]; exact (digitAt_spec u hu36).1
      · rw [List.foldl_cons, List.foldl_nil, decodeStep_digitAt 0 u hu36]; simp

theorem FormatInt_base36_spec (n : Nat) (hn : n < 2 ^ 64) :
    (FormatInt (n : Int) 36).toList ≠ [] ∧
      (∀ c ∈ (FormatInt (n : Int) 36).toList, isBase36 c = true) ∧
      decodeBase36 (FormatInt (n : Int) 36) = some n := by
  have hlt : n < 36 ^ (64 + 1) := lt_trans hn (by norm_num)
  obtain ⟨ds, h1, h2, h3, h4⟩ := formatBitsLoop_spec 64 n [] hlt
  have hmod : ((n : Int) % 2 ^ 64).toNat = n := by
    have : ((n : Int) % 2 ^ 64) = (n : Int) :=
      Int.emod_eq_of_lt (by positivity) (by exact_mod_cast hn)
    rw [this]; simp
  have hneg : ¬ ((n : Int) < 0) := by omega
  have hfmt : (FormatInt (n : Int) 36).toList = ds := by
    unfold FormatInt formatBits
    rw [hmod]
    simp only [hneg, decide_False, Bool.false_eq_true, if_false, h1, List.append_nil]
    rfl
  refine ⟨by rw [hfmt]; exact h2, by rw [hfmt]; exact h3, ?_⟩
  unfold decodeBase36
  rw [hfmt]
  cases ds with
  | nil => exact absurd rfl h2
  | cons c cs => simpa using h4

/-- C2: for every version, extension and clock reading with hour at most 23 and minute and
second at most 59, `SetFilename(ext)` sets `Filename` to `version + "-" + salt + ext` and
changes nothing else, where `salt` is the base-36 rendering of
`hour*3600 + minute*60 + second`: it is non-empty, made of the characters `0-9a-z` only,
and decodes in base 36 to that number, which is at most 86399. -/
theorem SetFilename_shape (fbm : FileBaseManager) (ext : String) (t : Clock)
    (hh : t.hour ≤ 23) (hm : t.minute ≤ 59) (hs : t.second ≤ 59) :
    ∃ salt : String,
      salt = FormatInt (seconds t) 36 ∧
      (fbm.SetFilename t ext).Filename = fbm.Version ++ "-" ++ salt ++ ext ∧
      (fbm.SetFilename t ext).Version = fbm.Version ∧
      (fbm.SetFilename t ext).Dir = fbm.Dir ∧
      salt.toList ≠ [] ∧
      (∀ c ∈ salt.toList, isBase36 c = true) ∧
      decodeBase36 salt = some (t.hour * 3600 + t.minute * 60 + t.second) ∧
      t.hour * 3600 + t.minute * 60 + t.second ≤ 86399 := by
  have hn : t.hour * 3600 + t.minute * 60 + t.second < 2 ^ 64 := by
    have : t.hour * 3600 + t.minute * 60 + t.second ≤ 86399 := by omega
    exact lt_of_le_of_lt this (by norm_num)
  obtain ⟨h1, h2, h3⟩ := FormatInt_base36_spec _ hn
  exact ⟨FormatInt (seconds t) 36, rfl, rfl, rfl, rfl, h1, h2, h3, by omega⟩

/-- Witness of C2 at 23:59:59, version `orig`, extension `.bin`. -/
theorem SetFilename_shape_witness :
    ∃ salt : String,
      salt = FormatInt (seconds demoClock) 36 ∧
      (FileBaseManager.SetFilename ⟨some 0, "orig", ""⟩ demoClock ".bin").Filename =
        "orig" ++ "-" ++ salt ++ ".bin" ∧
      (FileBaseManager.SetFilename ⟨some 0, "orig", ""⟩ demoClock ".bin").Version = "orig" ∧
      (FileBaseManager.SetFilename ⟨some 0, "orig", ""⟩ demoClock ".bin").Dir = some 0 ∧
      salt.toList ≠ [] ∧
      (∀ c ∈ salt.toList, isBase36 c = true) ∧
      decodeBase36 salt = some (23 * 3600 + 59 * 60 + 59) ∧
      23 * 3600 + 59 * 60 + 59 ≤ 86399 :=
  SetFilename_shape ⟨some 0, "orig", ""⟩ ".bin" demoClock (by decide) (by decide) (by decide)

/-! ## Theorems: path resolver binding -/

theorem cleanLoop_fuel (rooted : Bool) :
    ∀ (f1 f2 : Nat) (rest buf : List Char) (dotdot : Nat),
      rest.length ≤ f1 → rest.length ≤ f2 →
      cleanLoop rooted f1 rest buf dotdot = cleanLoop rooted f2 rest buf dotdot := by
  intro f1
  induction f1 with
  | zero =>
    intro f2 rest buf dotdot h1 _
    have hr : rest = [] := List.length_eq_zero.1 (Nat.le_zero.1 h1)
    subst hr
    cases f2 <;> rfl
  | succ n ih =>
    intro f2 rest buf dotdot h1 h2
    cases rest with
    | nil => cases f2 <;> rfl
    | cons c t =>
      cases f2 with
      | zero => simp at h2
      | succ m =>
        have ht1 : t.length ≤ n := by simpa using h1
        have ht2 : t.length ≤ m := by simpa using h2
        have htl : t.tail.length ≤ t.length := by simp
        have hdw : c ≠ '/' → ((c :: t).dropWhile (fun x => x != '/')).length ≤ t.length := by
          intro hc
          have hb : (c != '/') = true := by simpa using hc
          rw [List.dropWhile_cons, if_pos hb]
          exact (List.dropWhile_sublist _).length_le
        simp only [cleanLoop]
        split_ifs
        all_goals first
          | exact ih m _ _ _ ht1 ht2
          | exact ih m _ _ _ (le_trans htl ht1) (le_trans htl ht2)
          | exact ih m _ _ _ (le_trans (hdw ‹_›) ht1) (le_trans (hdw ‹_›) ht2)

theorem Clean_finish_ne_empty (out : List Char) :
    (if out.length = 0 then "." else String.mk out) ≠ "" := by
  by_cases h : out.length = 0
  · rw [if_pos h]
    decide
  · rw [if_neg h]
    intro he
    apply h
    have := congrArg String.length he
    simpa using this

theorem Clean_ne_empty (path : String) : Clean path ≠ "" := by
  unfold Clean
  by_cases hp : path.toList = []
  · simp only [hp, if_true]
    decide
  · simp only [hp, if_false]
    exact Clean_finish_ne_empty _

theorem Join_empty_right (a : String) :
    Join [a, ""] = if a = "" then "" else Clean (a ++ "/") := by
  by_cases h : a = ""
  · subst h
    decide
  · simp only [Join, h, ne_eq, not_false_eq_true, if_true, if_false]
    congr 1
    simp [String.intercalate, String.intercalate.go]

theorem Join_empty_right_eq_empty_iff (a : String) : Join [a, ""] = "" ↔ a = "" := by
  rw [Join_empty_right]
  by_cases h : a = ""
  · simp [h]
  · simp only [h, if_false, iff_false]
    exact Clean_ne_empty _

theorem isPlainName_data (s : String) (h : isPlainName s = true) :
    s.data ≠ [] ∧ '/' ∉ s.data ∧ s.data ≠ ['.'] ∧ s.data ≠ ['.', '.'] := by
  simp only [isPlainName, Bool.and_eq_true, Bool.not_eq_true', List.isEmpty_eq_false,
    bne_iff_ne, ne_eq, String.toList] at h
  obtain ⟨⟨⟨h1, h2⟩, h3⟩, h4⟩ := h
  refine ⟨h1, ?_, ?_, ?_⟩
  · intro hm
    have : s.data.contains '/' = true := by simpa using hm
    rw [this] at h2
    exact Bool.noConfusion h2
  · intro hd
    apply h3
    exact String.ext hd
  · intro hd
    apply h4
    exact String.ext hd

theorem takeWhile_atElemEnd (tail : List Char) (ht : atElemEnd tail = true) :
    tail.takeWhile (fun x => x != '/') = [] ∧ tail.dropWhile (fun x => x != '/') = tail := by
  cases tail with
  | nil => exact ⟨rfl, rfl⟩
  | cons c t =>
    have hc : c = '/' := by simpa [atElemEnd] using ht
    subst hc
    exact ⟨rfl, rfl⟩

theorem cleanLoop_name (rooted : Bool) (n : Nat) (c tail buf : List Char) (dotdot : Nat)
    (hc1 : c ≠ []) (hc2 : '/' ∉ c) (hc3 : c ≠ ['.']) (hc4 : c ≠ ['.', '.'])
    (ht : atElemEnd tail = true) :
    cleanLoop rooted (n + 1) (c ++ tail) buf dotdot =
      cleanLoop rooted n tail
        (buf ++ (if (rooted = true ∧ buf.length ≠ 1) ∨ (¬ rooted = true ∧ buf.length ≠ 0)
          then ['/'] else []) ++ c) dotdot := by
  cases c with
  | nil => exact absurd rfl hc1
  | cons c0 ct =>
    have h0 : c0 ≠ '/' := fun h => hc2 (by simp [h])
    have hall : ∀ a ∈ c0 :: ct, (fun x => x != '/') a = true := by
      intro a ha
      have : a ≠ '/' := fun h => hc2 (h ▸ ha)
      simpa using this
    have h2 : ¬ (c0 = '.' ∧ atElemEnd (ct ++ tail) = true) := by
      rintro ⟨hd, he⟩
      cases ct with
      | nil => exact hc3 (by rw [hd])
      | cons c1 ct1 =>
        have : c1 = '/' := by simpa [atElemEnd] using he
        exact hc2 (by simp [this])
    have h3 : ¬ (c0 = '.' ∧ (ct ++ tail).head? = some '.' ∧
        atElemEnd (ct ++ tail).tail = true) := by
      rintro ⟨hd, hh, he⟩
      cases ct with
      | nil =>
        cases tail with
        | nil => simp at hh
        | cons t0 t1 =>
          have ht0 : t0 = '/' := by simpa [atElemEnd] using ht
          simp [ht0] at hh
      | cons c1 ct1 =>
        have hc1' : c1 = '.' := by simpa using hh
        cases ct1 with
        | nil => exact hc4 (by rw [hd, hc1'])
        | cons c2 ct2 =>
          have : c2 = '/' := by simpa [atElemEnd] using he
          exact hc2 (by simp [this])
    obtain ⟨htw, hdw⟩ := takeWhile_atElemEnd tail ht
    have htake : ((c0 :: ct) ++ tail).takeWhile (fun x => x != '/') = c0 :: ct := by
      rw [List.takeWhile_append_of_pos hall, htw, List.append_nil]
    have hdrop : ((c0 :: ct) ++ tail).dropWhile (fun x => x != '/') = tail := by
      rw [List.dropWhile_append_of_pos hall, hdw]
    rw [List.cons_append] at htake hdrop ⊢
    rw [cleanLoop, if_neg h0, if_neg h2, if_neg h3]
    simp only [htake, hdrop]
    split_ifs <;> simp

theorem cleanLoop_joinNames (rooted : Bool) (dotdot : Nat) :
    ∀ (names : List String), names ≠ [] → (∀ x ∈ names, isPlainName x = true) →
      ∀ (buf : List Char) (fuel : Nat), (joinNames names).data.length ≤ fuel →
        cleanLoop rooted fuel (joinNames names).data buf dotdot =
          buf ++ (if (rooted = true ∧ buf.length ≠ 1) ∨ (¬ rooted = true ∧ buf.length ≠ 0)
            then ['/'] else []) ++ (joinNames names).data := by
  intro names
  induction names with
  | nil => intro h; exact absurd rfl h
  | cons c rest ih =>
    intro _ hall buf fuel hfuel
    obtain ⟨hc1, hc2, hc3, hc4⟩ := isPlainName_data c (hall c (List.mem_cons_self _ _))
    cases rest with
    | nil =>
      have hlen : 0 < c.data.length := List.length_pos.2 hc1
      obtain ⟨n, rfl⟩ : ∃ n, fuel = n + 1 := ⟨fuel - 1, by simp only [joinNames] at hfuel; omega⟩
      have := cleanLoop_name rooted n c.data [] buf dotdot hc1 hc2 hc3 hc4 rfl
      rw [List.append_nil] at this
      simp only [joinNames]
      rw [this]
      cases n <;> rfl
    | cons d rest1 =>
      have hj : (joinNames (c :: d :: rest1)).data =
          c.data ++ ('/' :: (joinNames (d :: rest1)).data) := by
        simp [joinNames]
      rw [hj] at hfuel ⊢
      have hlen : 0 < c.data.length := List.length_pos.2 hc1
      simp only [List.length_append, List.length_cons] at hfuel
      obtain ⟨m, rfl⟩ : ∃ m, fuel = m + 1 + 1 := ⟨fuel - 2, by omega⟩
      rw [cleanLoop_name rooted (m + 1) c.data ('/' :: (joinNames (d :: rest1)).data) buf dotdot
        hc1 hc2 hc3 hc4 rfl]
      rw [cleanLoop, if_pos rfl]
      rw [ih (by simp) (fun x hx => hall x (List.mem_cons_of_mem _ hx)) _ m (by omega)]
      have hsep : ((rooted = true ∧ (buf ++ (if (rooted = true ∧ buf.length ≠ 1) ∨
          (¬ rooted = true ∧ buf.length ≠ 0) then ['/'] else []) ++ c.data).length ≠ 1) ∨
          (¬ rooted = true ∧ (buf ++ (if (rooted = true ∧ buf.length ≠ 1) ∨
          (¬ rooted = true ∧ buf.length ≠ 0) then ['/'] else []) ++ c.data).length ≠ 0)) := by
        cases rooted
        · right
          refine ⟨by simp, ?_⟩
          simp only [List.length_append]
          omega
        · left
          refine ⟨rfl, ?_⟩
          by_cases hb : buf.length = 1
          · simp only [List.length_append, hb]
            omega
          · simp only [List.length_append, hb, ne_eq, not_false_eq_true, and_self, true_or,
              if_true, List.length_singleton]
            omega
      rw [if_pos hsep]
      simp

theorem Clean_rooted (J : List Char) :
    Clean (String.mk ('/' :: J)) =
      if (cleanLoop true (J.length + 1) J ['/'] 1).length = 0 then "."
      else String.mk (cleanLoop true (J.length + 1) J ['/'] 1) := by
  simp [Clean, String.toList]

theorem Clean_unrooted (c0 : Char) (J : List Char) (h : c0 ≠ '/') :
    Clean (String.mk (c0 :: J)) =
      if (cleanLoop false (J.length + 1) (c0 :: J) [] 0).length = 0 then "."
      else String.mk (cleanLoop false (J.length + 1) (c0 :: J) [] 0) := by
  have hb : (c0 == '/') = false := by simpa using h
  simp [Clean, String.toList, h, hb]

theorem joinNames_data_cons (c : String) (rest : List String) (hc : isPlainName c = true) :
    ∃ c0 ct, c0 ≠ '/' ∧ (joinNames (c :: rest)).data = c0 :: ct := by
  obtain ⟨hc1, hc2, _, _⟩ := isPlainName_data c hc
  cases hd : c.data with
  | nil => exact absurd hd hc1
  | cons c0 ct =>
    have h0 : c0 ≠ '/' := fun h => hc2 (by rw [hd, h]; simp)
    cases rest with
    | nil => exact ⟨c0, ct, h0, by simp [joinNames, hd]⟩
    | cons d rest1 => exact ⟨c0, ct ++ '/' :: (joinNames (d :: rest1)).data, h0, by
        simp [joinNames, hd]⟩

theorem joinNames_append_data (names : List String) (name : String) (hn : names ≠ []) :
    (joinNames (names ++ [name])).data = (joinNames names).data ++ '/' :: name.data := by
  induction names with
  | nil => exact absurd rfl hn
  | cons c rest ih =>
    cases rest with
    | nil => simp [joinNames]
    | cons d rest1 =>
      have := ih (by simp)
      simp only [List.cons_append] at this ⊢
      simp [joinNames, this]

theorem Clean_mkPath (rooted : Bool) (names : List String) (hn : names ≠ [])
    (hall : ∀ x ∈ names, isPlainName x = true) :
    Clean (mkPath rooted names) = mkPath rooted names := by
  have hloop := cleanLoop_joinNames rooted
  cases names with
  | nil => exact absurd rfl hn
  | cons c rest =>
    obtain ⟨c0, ct, h0, hj⟩ := joinNames_data_cons c rest (hall c (List.mem_cons_self _ _))
    cases rooted with
    | true =>
      have hp : mkPath true (c :: rest) = String.mk ('/' :: (joinNames (c :: rest)).data) := by
        apply String.ext
        simp [mkPath]
      rw [hp, Clean_rooted]
      rw [hloop 1 (c :: rest) hn hall ['/'] _ (Nat.le_succ _)]
      simp
    | false =>
      have hp : mkPath false (c :: rest) = String.mk (c0 :: ct) := by
        apply String.ext
        simp [mkPath, hj]
      rw [hp, Clean_unrooted c0 ct h0]
      have := hloop 0 (c :: rest) hn hall [] (ct.length + 1) (by rw [hj]; simp)
      rw [hj] at this
      rw [this]
      simp

theorem Join_dir_name (rooted : Bool) (names : List String) (name : String)
    (hroot : rooted = true ∨ names ≠ []) (hall : ∀ x ∈ names, isPlainName x = true)
    (hname : isPlainName name = true) :
    Join [mkPath rooted names, name] = mkPath rooted (names ++ [name]) := by
  have hall1 : ∀ x ∈ names ++ [name], isPlainName x = true := by
    intro x hx
    rcases List.mem_append.1 hx with h | h
    · exact hall x h
    · rw [List.mem_singleton.1 h]; exact hname
  by_cases hn : names = []
  · subst hn
    have hr : rooted = true := by
      rcases hroot with h | h
      · exact h
      · exact absurd rfl h
    subst hr
    obtain ⟨c0, ct, h0, hj⟩ := joinNames_data_cons name [] hname
    have hne : mkPath true [] ≠ "" := by decide
    have hcat : String.intercalate "/" [mkPath true [], name] =
        String.mk ('/' :: '/' :: name.data) := by
      apply String.ext
      simp [String.intercalate, String.intercalate.go, mkPath, joinNames]
    simp only [Join, hne, ne_eq, not_false_eq_true, if_true]
    rw [hcat, Clean_rooted]
    have h1 : cleanLoop true (('/' :: name.data).length + 1) ('/' :: name.data) ['/'] 1 =
        cleanLoop true ('/' :: name.data).length name.data ['/'] 1 := by
      rw [cleanLoop, if_pos rfl]
    have h2 := cleanLoop_joinNames true 1 [name] (by simp) (fun x hx => hall1 x (by simpa using hx))
      ['/'] ('/' :: name.data).length (by simp [joinNames])
    simp only [joinNames] at h2
    rw [h1, h2]
    have : mkPath true ([] ++ [name]) = String.mk ('/' :: name.data) := by
      apply String.ext
      simp [mkPath, joinNames]
    rw [this]
    simp
  · have hne : mkPath rooted names ≠ "" := by
      intro h
      have hd := congrArg String.data h
      cases names with
      | nil => exact hn rfl
      | cons c rest =>
        obtain ⟨c0, ct, _, hj⟩ := joinNames_data_cons c rest (hall c (List.mem_cons_self _ _))
        simp [mkPath, hj] at hd
    have hcat : String.intercalate "/" [mkPath rooted names, name] =
        mkPath rooted (names ++ [name]) := by
      apply String.ext
      simp [String.intercalate, String.intercalate.go, mkPath, joinNames_append_data names name hn]
    simp only [Join, hne, ne_eq, not_false_eq_true, if_true]
    rw [hcat]
    exact Clean_mkPath rooted (names ++ [name]) (by simp) hall1

/-- C6: for every manager whose directory pointer is live, `Filepath()` is
`join(Dir.Abs(), Filename)` and `Url()` is `join(Dir.Path, Filename)`, where the join of a
directory made of plain names and a plain file name is the path of the directory's names
followed by the file name.  Both are functions of the current directory context and
filename alone, nothing is cached: after the directory context behind the pointer is
overwritten, both return the join with the new values. -/
theorem Filepath_Url_join (heap : Heap) (fbm : FileBaseManager) (a : Nat)
    (dm dm1 : DirManager) (hdir : fbm.Dir = some a) (hlive : heap a = some dm) :
    fbm.Filepath heap = some (Join [dm.Abs, fbm.Filename]) ∧
      fbm.Url heap = some (Join [dm.Path, fbm.Filename]) ∧
      fbm.Filepath (heap.store a dm1) = some (Join [dm1.Abs, fbm.Filename]) ∧
      fbm.Url (heap.store a dm1) = some (Join [dm1.Path, fbm.Filename]) ∧
      (∀ rooted names, dm.Abs = mkPath rooted names → (rooted = true ∨ names ≠ []) →
        (∀ x ∈ names, isPlainName x = true) → isPlainName fbm.Filename = true →
        fbm.Filepath heap = some (mkPath rooted (names ++ [fbm.Filename]))) ∧
      (∀ rooted names, dm.Path = mkPath rooted names → (rooted = true ∨ names ≠ []) →
        (∀ x ∈ names, isPlainName x = true) → isPlainName fbm.Filename = true →
        fbm.Url heap = some (mkPath rooted (names ++ [fbm.Filename]))) ∧
      (∀ rooted names, dm1.Abs = mkPath rooted names → (rooted = true ∨ names ≠ []) →
        (∀ x ∈ names, isPlainName x = true) → isPlainName fbm.Filename = true →
        fbm.Filepath (heap.store a dm1) = some (mkPath rooted (names ++ [fbm.Filename]))) ∧
      (∀ rooted names, dm1.Path = mkPath rooted names → (rooted = true ∨ names ≠ []) →
        (∀ x ∈ names, isPlainName x = true) → isPlainName fbm.Filename = true →
        fbm.Url (heap.store a dm1) = some (mkPath rooted (names ++ [fbm.Filename]))) := by
  have h1 : fbm.Filepath heap = some (Join [dm.Abs, fbm.Filename]) := by
    simp [FileBaseManager.Filepath, deref, hdir, hlive]
  have h2 : fbm.Url heap = some (Join [dm.Path, fbm.Filename]) := by
    simp [FileBaseManager.Url, deref, hdir, hlive]
  have h3 : fbm.Filepath (heap.store a dm1) = some (Join [dm1.Abs, fbm.Filename]) := by
    simp [FileBaseManager.Filepath, deref, hdir, Heap.store]
  have h4 : fbm.Url (heap.store a dm1) = some (Join [dm1.Path, fbm.Filename]) := by
    simp [FileBaseManager.Url, deref, hdir, Heap.store]
  refine ⟨h1, h2, h3, h4, ?_, ?_, ?_, ?_⟩
  · intro rooted names hd hroot hall hname
    rw [h1, hd, Join_dir_name rooted names fbm.Filename hroot hall hname]
  · intro rooted names hd hroot hall hname
    rw [h2, hd, Join_dir_name rooted names fbm.Filename hroot hall hname]
  · intro rooted names hd hroot hall hname
    rw [h3, hd, Join_dir_name rooted names fbm.Filename hroot hall hname]
  · intro rooted names hd hroot hall hname
    rw [h4, hd, Join_dir_name rooted names fbm.Filename hroot hall hname]

/-- Witness of C6: the manager of version `orig` after `SetFilename(".bin")` at 23:59:59,
under `demoDir`, and then under a directory context moved to `/mnt/store` and `/static`. -/
theorem Filepath_Url_join_witness :
    (FileBaseManager.SetFilename ⟨some 0, "orig", ""⟩ demoClock ".bin").Filename =
        "orig-1unz.bin" ∧
      FileBaseManager.Filepath demoHeap ⟨some 0, "orig", "orig-1unz.bin"⟩ =
        some "/srv/files/orig-1unz.bin" ∧
      FileBaseManager.Url demoHeap ⟨some 0, "orig", "orig-1unz.bin"⟩ =
        some "/files/orig-1unz.bin" ∧
      FileBaseManager.Filepath (demoHeap.store 0 ⟨"/mnt/store", "/static"⟩)
          ⟨some 0, "orig", "orig-1unz.bin"⟩ = some "/mnt/store/orig-1unz.bin" ∧
      FileBaseManager.Url (demoHeap.store 0 ⟨"/mnt/store", "/static"⟩)
          ⟨some 0, "orig", "orig-1unz.bin"⟩ = some "/static/orig-1unz.bin" :=
  ⟨by decide,
    (Filepath_Url_join demoHeap ⟨some 0, "orig", "orig-1unz.bin"⟩ 0 demoDir
      ⟨"/mnt/store", "/static"⟩ rfl rfl).2.2.2.2.1 true ["srv", "files"] (by decide)
      (Or.inl rfl) (by decide) (by decide),
    (Filepath_Url_join demoHeap ⟨some 0, "orig", "orig-1unz.bin"⟩ 0 demoDir
      ⟨"/mnt/store", "/static"⟩ rfl rfl).2.2.2.2.2.1 true ["files"] (by decide)
      (Or.inl rfl) (by decide) (by decide),
    (Filepath_Url_join demoHeap ⟨some 0, "orig", "orig-1unz.bin"⟩ 0 demoDir
      ⟨"/mnt/store", "/static"⟩ rfl rfl).2.2.2.2.2.2.1 true ["mnt", "store"] (by decide)
      (Or.inl rfl) (by decide) (by decide),
    (Filepath_Url_join demoHeap ⟨some 0, "orig", "orig-1unz.bin"⟩ 0 demoDir
      ⟨"/mnt/store", "/static"⟩ rfl rfl).2.2.2.2.2.2.2 true ["static"] (by decide)
      (Or.inl rfl) (by decide) (by decide)⟩

/-- C7, as stated, fails: on the manager freshly returned by
`NewFileManager(dm, "image", "v1")` over `demoDir`, before any `SetFilename`, `Filepath()`
returns `/srv/files` and `Url()` returns `/files`; neither panics or is empty. -/
theorem unassigned_paths_do_not_fail :
    (NewFileManager (some 0) "image" "v1").base = some ⟨some 0, "v1", ""⟩ ∧
      FileBaseManager.Filepath demoHeap ⟨some 0, "v1", ""⟩ = some "/srv/files" ∧
      FileBaseManager.Url demoHeap ⟨some 0, "v1", ""⟩ = some "/files" ∧
      failsFast (FileBaseManager.Filepath demoHeap ⟨some 0, "v1", ""⟩) = false ∧
      failsFast (FileBaseManager.Url demoHeap ⟨some 0, "v1", ""⟩) = false := by
  decide

/-- C7 amended: for every manager freshly returned by `NewFileManager` over a live directory
context, `Filepath()` and `Url()` return without error the join of the directory string
with the empty filename, which is the cleaned directory string itself
(`Clean(dir + "/")`); the result is empty exactly when the directory string is empty. -/
theorem unassigned_paths_are_directory (heap : Heap) (a : Nat) (dm : DirManager)
    (mime_base version : String) (fbm : FileBaseManager) (hlive : heap a = some dm)
    (hnew : (NewFileManager (some a) mime_base version).base = some fbm) :
    fbm.Filename = "" ∧
      fbm.Filepath heap = some (if dm.Abs = "" then "" else Clean (dm.Abs ++ "/")) ∧
      fbm.Url heap = some (if dm.Path = "" then "" else Clean (dm.Path ++ "/")) ∧
      (failsFast (fbm.Filepath heap) = true ↔ dm.Abs = "") ∧
      (failsFast (fbm.Url heap) = true ↔ dm.Path = "") := by
  have hb := NewFileManager_base (some a) mime_base version
  rw [hb] at hnew
  have hfbm : fbm = ⟨some a, version, ""⟩ := (Option.some.inj hnew).symm
  subst hfbm
  have h1 : FileBaseManager.Filepath heap ⟨some a, version, ""⟩ = some (Join [dm.Abs, ""]) := by
    simp [FileBaseManager.Filepath, deref, hlive]
  have h2 : FileBaseManager.Url heap ⟨some a, version, ""⟩ = some (Join [dm.Path, ""]) := by
    simp [FileBaseManager.Url, deref, hlive]
  refine ⟨rfl, ?_, ?_, ?_, ?_⟩
  · rw [h1, Join_empty_right]
  · rw [h2, Join_empty_right]
  · rw [h1]
    simp only [failsFast, beq_iff_eq]
    exact Join_empty_right_eq_empty_iff _
  · rw [h2]
    simp only [failsFast, beq_iff_eq]
    exact Join_empty_right_eq_empty_iff _

/-- Witness of the amended C7 on `demoDir`. -/
theorem unassigned_paths_are_directory_witness :
    (⟨some 0, "v1", ""⟩ : FileBaseManager).Filename = "" ∧
      FileBaseManager.Filepath demoHeap ⟨some 0, "v1", ""⟩ =
        some (if demoDir.Abs = "" then "" else Clean (demoDir.Abs ++ "/")) ∧
      FileBaseManager.Url demoHeap ⟨some 0, "v1", ""⟩ =
        some (if demoDir.Path = "" then "" else Clean (demoDir.Path ++ "/")) ∧
      (failsFast (FileBaseManager.Filepath demoHeap ⟨some 0, "v1", ""⟩) = true ↔
        demoDir.Abs = "") ∧
      (failsFast (FileBaseManager.Url demoHeap ⟨some 0, "v1", ""⟩) = true ↔
        demoDir.Path = "") :=
  unassigned_paths_are_directory demoHeap 0 demoDir "image" "v1" ⟨some 0, "v1", ""⟩
    (by decide) (by decide)

/-! ## Theorems: association lists of the filesystem -/

theorem lookup_setInode (i j : Nat) (nd : Inode) (l : List (Nat × Inode)) :
    (setInode i nd l).lookup j =
      if j = i then (l.lookup i).map (fun _ => nd) else l.lookup j := by
  induction l with
  | nil => simp [setInode]
  | cons e rest ih =>
    obtain ⟨k, old⟩ := e
    by_cases hk : k = i
    · subst hk
      by_cases hj : j = k
      · subst hj
        simp [setInode, List.lookup_cons]
      · have : (j == k) = false := by simpa using hj
        simp [setInode, List.lookup_cons, this, hj]
    · by_cases hj : j = i
      · subst hj
        have h1 : (j == k) = false := by simpa using (Ne.symm hk)
        simp [setInode, List.lookup_cons, hk, h1, ih]
      · by_cases hjk : j = k
        · subst hjk
          simp [setInode, List.lookup_cons, hk]
        · have h1 : (j == k) = false := by simpa using hjk
          simp [setInode, List.lookup_cons, hk, h1, ih, hj]

theorem lookup_filter_key {α β : Type} [DecidableEq α] (p q : α) (l : List (α × β)) :
    (l.filter (fun e => e.1 != p)).lookup q = if q = p then none else l.lookup q := by
  induction l with
  | nil => simp
  | cons e rest ih =>
    obtain ⟨k, v⟩ := e
    by_cases hk : k = p
    · subst hk
      by_cases hq : q = k
      · subst hq
        simpa [List.filter_cons] using ih
      · have h1 : (q == k) = false := by simpa using hq
        simp only [List.filter_cons, bne_self_eq_false, Bool.false_eq_true, if_false, ih, hq,
          List.lookup_cons, h1]
    · have h0 : (k != p) = true := by simpa using hk
      by_cases hq : q = p
      · subst hq
        have h1 : (q == k) = false := by simpa using (Ne.symm hk)
        simp only [List.filter_cons, h0, if_true, List.lookup_cons, h1, ih]
      · by_cases hqk : q = k
        · subst hqk
          simp [List.filter_cons, h0, List.lookup_cons, hq]
        · have h1 : (q == k) = false := by simpa using hqk
          simp only [List.filter_cons, h0, if_true, List.lookup_cons, h1, ih, hq, if_false]

theorem mem_of_lookup_eq_some {α β : Type} [DecidableEq α] (q : α) (v : β) (l : List (α × β))
    (h : l.lookup q = some v) : (q, v) ∈ l := by
  induction l with
  | nil => simp at h
  | cons e rest ih =>
    obtain ⟨k, w⟩ := e
    by_cases hqk : q = k
    · subst hqk
      simp only [List.lookup_cons, beq_self_eq_true] at h
      simp [Option.some.inj h]
    · have h1 : (q == k) = false := by simpa using hqk
      simp only [List.lookup_cons, h1] at h
      exact List.mem_cons_of_mem _ (ih h)

theorem le_foldr_max (l : List Nat) (x : Nat) (hx : x ∈ l) : x ≤ l.foldr max 0 := by
  induction l with
  | nil => simp at hx
  | cons y rest ih =>
    rcases List.mem_cons.1 hx with h | h
    · subst h
      exact le_max_left _ _
    · exact le_trans (ih h) (le_max_right _ _)

theorem inode_lt_fresh (fs : FS) (i : Nat) (nd : Inode) (h : fs.inodes.lookup i = some nd) :
    i < fs.fresh := by
  have hm : (i, nd) ∈ fs.inodes := mem_of_lookup_eq_some i nd fs.inodes h
  have : i ∈ fs.inodes.map Prod.fst ++ fs.names.map Prod.snd :=
    List.mem_append_left _ (List.mem_map.2 ⟨(i, nd), hm, rfl⟩)
  exact Nat.lt_succ_of_le (le_foldr_max _ _ this)

theorem name_lt_fresh (fs : FS) (p : String) (i : Nat) (h : fs.names.lookup p = some i) :
    i < fs.fresh := by
  have hm : (p, i) ∈ fs.names := mem_of_lookup_eq_some p i fs.names h
  have : i ∈ fs.inodes.map Prod.fst ++ fs.names.map Prod.snd :=
    List.mem_append_right _ (List.mem_map.2 ⟨(p, i), hm, rfl⟩)
  exact Nat.lt_succ_of_le (le_foldr_max _ _ this)

theorem small_mode_regular (m : Nat) (hm : m < 2 ^ 19) : IsRegular m = true := by
  have hT : ∀ k, k < 19 → ModeType.testBit k = false := by decide
  have h0 : m &&& ModeType = 0 := by
    apply Nat.eq_of_testBit_eq
    intro k
    rw [Nat.testBit_and, Nat.zero_testBit]
    by_cases hk : k < 19
    · rw [hT k hk]; simp
    · have : m.testBit k = false :=
        Nat.testBit_lt_two_pow
          (lt_of_lt_of_le hm (Nat.pow_le_pow_right (by norm_num) (by omega)))
      rw [this]; simp
  simp [IsRegular, h0]

theorem created_mode_regular (umask : Nat) :
    IsRegular (0o666 &&& (0o777 ^^^ (umask % 512))) = true :=
  small_mode_regular _ (lt_of_le_of_lt Nat.and_le_left (by norm_num))


theorem regular_not_dir (m : FileMode) (h : IsRegular m = true) : IsDir m = false := by
  have h0 : m &&& ModeType = 0 := by simpa [IsRegular] using h
  have hT : ModeType &&& ModeDir = ModeDir := by decide
  have : m &&& ModeDir = 0 := by
    rw [← hT, ← Nat.and_assoc, h0, Nat.zero_and]
  simp [IsDir, this]

/-! ## Theorems: the primitives -/

theorem node_eq_some (fs : FS) (p : String) (i : Nat) (nd : Inode) :
    fs.node p = some (i, nd) ↔ fs.names.lookup p = some i ∧ fs.inodes.lookup i = some nd := by
  unfold FS.node
  cases h1 : fs.names.lookup p with
  | none => simp
  | some j =>
    cases h2 : fs.inodes.lookup j with
    | none =>
      simp only [h2, Option.some.injEq]
      constructor
      · intro h
        exact Option.noConfusion h
      · rintro ⟨hj, h3⟩
        rw [← hj, h2] at h3
        exact Option.noConfusion h3
    | some nd1 =>
      simp only [h2, Option.some.injEq, Prod.mk.injEq]
      constructor
      · rintro ⟨hj, hnd⟩
        rw [← hj, h2, hnd]
        exact ⟨rfl, rfl⟩
      · rintro ⟨hj, h3⟩
        rw [← hj, h2] at h3
        exact ⟨hj, Option.some.inj h3⟩

theorem regular_not_symlink (m : FileMode) (h : IsRegular m = true) : IsSymlink m = false := by
  have h0 : m &&& ModeType = 0 := by simpa [IsRegular] using h
  have hT : ModeType &&& ModeSymlink = ModeSymlink := by decide
  have : m &&& ModeSymlink = 0 := by
    rw [← hT, ← Nat.and_assoc, h0, Nat.zero_and]
  simp [IsSymlink, this]

theorem followLinks_of_none (lt : String → Option String) (n : Nat) (p : String)
    (h : lt p = none) : followLinks lt n p = some p := by
  cases n <;> simp [followLinks, h]

theorem followLinks_end (lt : String → Option String) :
    ∀ (n : Nat) (p q : String), followLinks lt n p = some q → lt q = none := by
  intro n
  induction n with
  | zero =>
    intro p q h
    unfold followLinks at h
    cases h1 : lt p with
    | none =>
      simp only [h1, Option.some.injEq] at h
      rw [← h]; exact h1
    | some r => simp [h1] at h
  | succ n ih =>
    intro p q h
    unfold followLinks at h
    cases h1 : lt p with
    | none =>
      simp only [h1, Option.some.injEq] at h
      rw [← h]; exact h1
    | some r =>
      simp only [h1] at h
      exact ih r q h

theorem followLinks_mono (lt : String → Option String) :
    ∀ (n m : Nat) (p q : String), followLinks lt n p = some q → n ≤ m →
      followLinks lt m p = some q := by
  intro n
  induction n with
  | zero =>
    intro m p q h _
    unfold followLinks at h
    cases h1 : lt p with
    | none =>
      simp only [h1, Option.some.injEq] at h
      rw [← h]; exact followLinks_of_none lt m p h1
    | some r => simp [h1] at h
  | succ n ih =>
    intro m p q h hm
    unfold followLinks at h
    cases h1 : lt p with
    | none =>
      simp only [h1, Option.some.injEq] at h
      rw [← h]; exact followLinks_of_none lt m p h1
    | some r =>
      simp only [h1] at h
      obtain ⟨k, rfl⟩ : ∃ k, m = k + 1 := ⟨m - 1, by omega⟩
      unfold followLinks
      simp only [h1]
      exact ih k r q h (by omega)

theorem followLinks_succ (lt : String → Option String) (n : Nat) (p : String) :
    followLinks lt (n + 1) p =
      match lt p with
      | none => some p
      | some q => followLinks lt n q := rfl

theorem followLinks_remove (lt lt1 : String → Option String) (s : String)
    (hne : ∀ x, x ≠ s → lt1 x = lt x) :
    ∀ (n : Nat) (p q : String), followLinks lt n p = some q →
      followLinks lt1 n p = some q ∨ ∃ k, k ≤ n ∧ followLinks lt k s = some q := by
  intro n
  induction n with
  | zero =>
    intro p q h
    by_cases hp : p = s
    · right
      exact ⟨0, le_refl _, by rw [← hp]; exact h⟩
    · left
      unfold followLinks at h ⊢
      rw [hne p hp]
      exact h
  | succ n ih =>
    intro p q h
    by_cases hp : p = s
    · right
      exact ⟨n + 1, le_refl _, by rw [← hp]; exact h⟩
    · rw [followLinks_succ] at h
      cases h1 : lt p with
      | none =>
        left
        rw [h1] at h
        rw [followLinks_succ, hne p hp, h1]
        exact h
      | some r =>
        rw [h1] at h
        rcases ih r q h with h2 | ⟨k, hk, h2⟩
        · left
          rw [followLinks_succ, hne p hp, h1]
          exact h2
        · exact Or.inr ⟨k, Nat.le_succ_of_le hk, h2⟩

theorem resolve_eq_some (fs : FS) (p : String) (i : Nat) (nd : Inode) :
    fs.resolve p = some (i, nd) ↔ ∃ q, fs.final p = some q ∧ fs.node q = some (i, nd) := by
  unfold FS.resolve
  cases h : fs.final p with
  | none => simp
  | some q => simp

theorem resolve_inode (fs : FS) (p : String) (i : Nat) (nd : Inode)
    (h : fs.resolve p = some (i, nd)) : fs.inodes.lookup i = some nd := by
  obtain ⟨q, _, hq⟩ := (resolve_eq_some fs p i nd).1 h
  exact ((node_eq_some fs q i nd).1 hq).2

theorem resolve_of_name_none (fs : FS) (p : String) (h : fs.names.lookup p = none) :
    fs.resolve p = none := by
  have hn : fs.node p = none := by simp [FS.node, h]
  have hl : fs.linkTarget p = none := by simp [FS.linkTarget, hn]
  simp [FS.resolve, FS.final, followLinks_of_none _ _ _ hl, hn]

theorem final_congr (fs fs1 : FS) (h : ∀ x, fs1.linkTarget x = fs.linkTarget x) (p : String) :
    fs1.final p = fs.final p := by
  have : fs1.linkTarget = fs.linkTarget := funext h
  unfold FS.final
  rw [this]

theorem node_setInode (fs : FS) (j : Nat) (nd1 : Inode) (x : String) :
    ({ fs with inodes := setInode j nd1 fs.inodes } : FS).node x =
      (fs.node x).map (fun r => if r.1 = j then (j, nd1) else r) := by
  unfold FS.node
  cases h1 : fs.names.lookup x with
  | none => rfl
  | some k =>
    simp only [lookup_setInode]
    by_cases hk : k = j
    · subst hk
      cases h2 : fs.inodes.lookup k <;> simp
    · cases h2 : fs.inodes.lookup k <;> simp [hk]

theorem resolve_setInode (fs : FS) (j : Nat) (ndj nd1 : Inode)
    (hj : fs.inodes.lookup j = some ndj) (hm : nd1.mode = ndj.mode)
    (ht : nd1.target = ndj.target) (p : String) :
    ({ fs with inodes := setInode j nd1 fs.inodes } : FS).resolve p =
      (fs.resolve p).map (fun r => if r.1 = j then (j, nd1) else r) := by
  have hl : ∀ x, ({ fs with inodes := setInode j nd1 fs.inodes } : FS).linkTarget x =
      fs.linkTarget x := by
    intro x
    unfold FS.linkTarget
    rw [node_setInode]
    cases h1 : fs.node x with
    | none => rfl
    | some r =>
      obtain ⟨k, nd⟩ := r
      by_cases hk : k = j
      · subst hk
        have h2 := ((node_eq_some fs x k nd).1 h1).2
        rw [hj] at h2
        have h3 : ndj = nd := Option.some.inj h2
        subst h3
        simp [hm, ht]
      · simp [hk]
  unfold FS.resolve
  rw [final_congr fs _ hl p]
  cases h : fs.final p with
  | none => rfl
  | some q => exact node_setInode fs j nd1 q

theorem node_create (fs : FS) (q : String) (nd0 : Inode) (x : String) :
    (fs.addFile q fs.fresh nd0).node x =
      if x = q then some (fs.fresh, nd0) else fs.node x := by
  unfold FS.node FS.addFile
  by_cases hx : x = q
  · subst hx
    simp [List.lookup_cons]
  · have b1 : (x == q) = false := by simpa using hx
    simp only [List.lookup_cons, b1, hx, if_false]
    cases h1 : fs.names.lookup x with
    | none => rfl
    | some k =>
      have hk : k ≠ fs.fresh := Nat.ne_of_lt (name_lt_fresh fs x k h1)
      have b2 : (k == fs.fresh) = false := by simpa using hk
      simp only [b2]

theorem resolve_create (fs : FS) (q : String) (nd0 : Inode) (hq : fs.node q = none)
    (hns : IsSymlink nd0.mode = false) (p : String) :
    (fs.addFile q fs.fresh nd0).resolve p =
      match fs.final p with
      | none => none
      | some r => if r = q then some (fs.fresh, nd0) else fs.node r := by
  have hl : ∀ x, (fs.addFile q fs.fresh nd0).linkTarget x = fs.linkTarget x := by
    intro x
    unfold FS.linkTarget
    rw [node_create]
    by_cases hx : x = q
    · subst hx
      simp [hq, hns]
    · simp [hx]
  unfold FS.resolve
  rw [final_congr fs _ hl p]
  cases h : fs.final p with
  | none => rfl
  | some r => exact node_create fs q nd0 r

theorem osStat_ok (env : Env) (fs : FS) (p : String) (fi : FileInfo)
    (h : osStat env fs p = .ok fi) :
    ∃ nd, fs.resolve p = some (fi.ino, nd) ∧ fi.Mode = nd.mode ∧ env.stat p = none := by
  unfold osStat at h
  cases h1 : env.stat p with
  | some e => simp [h1] at h
  | none =>
    cases h0 : fs.final p with
    | none => simp [h1, h0] at h
    | some q =>
      cases h2 : fs.node q with
      | none => simp [h1, h0, h2] at h
      | some r =>
        obtain ⟨i, nd⟩ := r
        simp only [h1, h0, h2, Except.ok.injEq] at h
        subst h
        exact ⟨nd, (resolve_eq_some fs p i nd).2 ⟨q, h0, h2⟩, rfl, rfl⟩

theorem osStat_of_resolve (env : Env) (fs : FS) (p : String) (i : Nat) (nd : Inode)
    (hr : fs.resolve p = some (i, nd)) (hs : env.stat p = none) :
    osStat env fs p = .ok { Name := basename p, Mode := nd.mode, ino := i } := by
  obtain ⟨q, h0, h2⟩ := (resolve_eq_some fs p i nd).1 hr
  simp [osStat, hs, h0, h2]

theorem osCreate_cases (env : Env) (fs fs1 : FS) (dst : String) (out : File)
    (hc : osCreate env fs dst = .ok (out, fs1)) :
    ∃ q, fs.final dst = some q ∧ out.name = dst ∧
      ((fs.node q = none ∧ out.ino = fs.fresh ∧
          fs1 = fs.addFile q fs.fresh
            { mode := 0o666 &&& (0o777 ^^^ (env.umask % 512)), bytes := [] }) ∨
        (∃ nd, fs.node q = some (out.ino, nd) ∧ IsRegular nd.mode = true ∧
          fs1 = { fs with inodes := setInode out.ino { nd with bytes := [] } fs.inodes }) ∨
        (∃ nd, fs.node q = some (out.ino, nd) ∧ IsRegular nd.mode = false ∧ fs1 = fs)) := by
  unfold osCreate at hc
  cases h1 : env.create dst with
  | some e => simp [h1] at hc
  | none =>
    cases h0 : fs.final dst with
    | none => simp [h1, h0] at hc
    | some q =>
      refine ⟨q, rfl, ?_⟩
      cases h2 : fs.node q with
      | none =>
        simp only [h1, h0, h2, Except.ok.injEq, Prod.mk.injEq] at hc
        obtain ⟨ho, hf⟩ := hc
        subst ho; subst hf
        exact ⟨rfl, Or.inl ⟨rfl, rfl, rfl⟩⟩
      | some r =>
        obtain ⟨j, nd1⟩ := r
        simp only [h1, h0, h2] at hc
        by_cases hd : IsDir nd1.mode = true
        · simp [hd] at hc
        · by_cases hr : IsRegular nd1.mode = true
          · simp only [hd, hr, Bool.false_eq_true, if_false, if_true, Except.ok.injEq,
              Prod.mk.injEq] at hc
            obtain ⟨ho, hf⟩ := hc
            subst ho; subst hf
            exact ⟨rfl, Or.inr (Or.inl ⟨nd1, rfl, hr, rfl⟩)⟩
          · simp only [hd, hr, Bool.false_eq_true, if_false, Except.ok.injEq,
              Prod.mk.injEq] at hc
            obtain ⟨ho, hf⟩ := hc
            subst ho; subst hf
            exact ⟨rfl, Or.inr (Or.inr ⟨nd1, rfl, by simpa using hr, rfl⟩)⟩

theorem osCreate_keeps (env : Env) (fs fs1 : FS) (src dst : String) (out : File) (i : Nat)
    (nd : Inode) (hsrc : fs.resolve src = some (i, nd))
    (hdist : ∀ j nd1, fs.resolve dst = some (j, nd1) → j ≠ i)
    (hc : osCreate env fs dst = .ok (out, fs1)) :
    fs1.resolve src = some (i, nd) ∧ out.ino ≠ i ∧ out.name = dst := by
  obtain ⟨q, hq, hname, hcases⟩ := osCreate_cases env fs fs1 dst out hc
  obtain ⟨r, hr, hnr⟩ := (resolve_eq_some fs src i nd).1 hsrc
  have hi := resolve_inode fs src i nd hsrc
  have hdst : ∀ nd1, fs.node q = some (out.ino, nd1) → out.ino ≠ i := fun nd1 h =>
    hdist out.ino nd1 ((resolve_eq_some fs dst out.ino nd1).2 ⟨q, hq, h⟩)
  rcases hcases with ⟨hn, hino, hfs⟩ | ⟨nd1, hn, hreg, hfs⟩ | ⟨nd1, hn, _, hfs⟩
  · have hfr : i ≠ fs.fresh := Nat.ne_of_lt (inode_lt_fresh fs i nd hi)
    refine ⟨?_, by rw [hino]; exact fun h => hfr h.symm, hname⟩
    rw [hfs, resolve_create fs q _ hn (regular_not_symlink _ (created_mode_regular env.umask))]
    have hrq : r ≠ q := by
      intro he
      rw [he, hn] at hnr
      exact Option.noConfusion hnr
    simp [hr, hrq, hnr]
  · have hji := hdst nd1 hn
    refine ⟨?_, hji, hname⟩
    rw [hfs, resolve_setInode fs out.ino nd1 { nd1 with bytes := [] }
      ((node_eq_some fs q _ nd1).1 hn).2 rfl rfl, hsrc]
    simp [Ne.symm hji]
  · rw [hfs]
    exact ⟨hsrc, hdst nd1 hn, hname⟩

theorem osCreate_dst (env : Env) (fs fs1 : FS) (dst : String) (out : File)
    (hdst : fs.resolve dst = none ∨
      ∃ j nd1, fs.resolve dst = some (j, nd1) ∧ IsRegular nd1.mode = true)
    (hc : osCreate env fs dst = .ok (out, fs1)) :
    ∃ nd0, fs1.resolve dst = some (out.ino, nd0) ∧ IsRegular nd0.mode = true := by
  obtain ⟨q, hq, _, hcases⟩ := osCreate_cases env fs fs1 dst out hc
  rcases hcases with ⟨hn, hino, hfs⟩ | ⟨nd1, hn, hreg, hfs⟩ | ⟨nd1, hn, hnreg, hfs⟩
  · refine ⟨{ mode := 0o666 &&& (0o777 ^^^ (env.umask % 512)), bytes := [] }, ?_,
      created_mode_regular env.umask⟩
    rw [hfs, resolve_create fs q _ hn (regular_not_symlink _ (created_mode_regular env.umask)),
      hino]
    simp [hq]
  · refine ⟨{ nd1 with bytes := [] }, ?_, hreg⟩
    have hres : fs.resolve dst = some (out.ino, nd1) :=
      (resolve_eq_some fs dst out.ino nd1).2 ⟨q, hq, hn⟩
    rw [hfs, resolve_setInode fs out.ino nd1 { nd1 with bytes := [] }
      ((node_eq_some fs q _ nd1).1 hn).2 rfl rfl, hres]
    simp
  · have hres : fs.resolve dst = some (out.ino, nd1) :=
      (resolve_eq_some fs dst out.ino nd1).2 ⟨q, hq, hn⟩
    rcases hdst with h0 | ⟨j, nd2, h0, hr2⟩
    · rw [h0] at hres
      exact Option.noConfusion hres
    · rw [h0] at hres
      have h3 : nd2 = nd1 := (Prod.mk.inj (Option.some.inj hres)).2
      rw [h3, hnreg] at hr2
      exact Bool.noConfusion hr2

theorem writeAll_other (fs : FS) (out : File) (data : List Nat) (p : String) (i : Nat)
    (nd : Inode) (hp : fs.resolve p = some (i, nd)) (hne : out.ino ≠ i) :
    (writeAll fs out data).resolve p = some (i, nd) := by
  unfold writeAll
  cases h1 : fs.inodes.lookup out.ino with
  | none => exact hp
  | some nd1 =>
    by_cases hr : IsRegular nd1.mode = true
    · simp only [hr, if_true]
      rw [resolve_setInode fs out.ino nd1 { nd1 with bytes := data } h1 rfl rfl, hp]
      simp [Ne.symm hne]
    · simp only [hr, Bool.false_eq_true, if_false]
      exact hp

theorem writeAll_target (fs : FS) (out : File) (data : List Nat) (p : String) (nd0 : Inode)
    (hp : fs.resolve p = some (out.ino, nd0)) (hr : IsRegular nd0.mode = true) :
    (writeAll fs out data).resolve p = some (out.ino, { nd0 with bytes := data }) := by
  have hi := resolve_inode fs p out.ino nd0 hp
  unfold writeAll
  simp only [hi, hr, if_true]
  rw [resolve_setInode fs out.ino nd0 { nd0 with bytes := data } hi rfl rfl, hp]
  simp

theorem osRemove_node (env : Env) (fs fs1 : FS) (p : String)
    (h : osRemove env fs p = (none, fs1)) :
    fs1.names.lookup p = none ∧ ∀ x, x ≠ p → fs1.node x = fs.node x := by
  unfold osRemove at h
  cases h1 : env.remove p with
  | some e => simp [h1] at h
  | none =>
    cases h2 : fs.names.lookup p with
    | none => simp [h1, h2] at h
    | some i =>
      simp only [h1, h2] at h
      by_cases ha : (fs.names.filter (fun e => e.1 != p)).any (fun e => e.2 == i) = true
      · simp only [ha, if_true, Prod.mk.injEq, true_and] at h
        subst h
        refine ⟨?_, ?_⟩
        · show (fs.names.filter (fun e => e.1 != p)).lookup p = none
          rw [lookup_filter_key, if_pos rfl]
        · intro x hx
          dsimp only [FS.node]
          rw [lookup_filter_key, if_neg hx]
      · simp only [ha, Bool.false_eq_true, if_false, Prod.mk.injEq, true_and] at h
        subst h
        refine ⟨?_, ?_⟩
        · show (fs.names.filter (fun e => e.1 != p)).lookup p = none
          rw [lookup_filter_key, if_pos rfl]
        · intro x hx
          have hq1 : (fs.names.filter (fun e => e.1 != p)).lookup x = fs.names.lookup x := by
            rw [lookup_filter_key, if_neg hx]
          dsimp only [FS.node]
          rw [hq1]
          cases h3 : fs.names.lookup x with
          | none => rfl
          | some j =>
            have hji : j ≠ i := by
              intro he
              apply ha
              rw [List.any_eq_true]
              rw [← hq1] at h3
              exact ⟨(x, j), mem_of_lookup_eq_some x j _ h3, by simp [he]⟩
            simp only [lookup_filter_key, if_neg hji]

theorem osRemove_ok (env : Env) (fs fs1 : FS) (p : String)
    (h : osRemove env fs p = (none, fs1)) :
    fs1.names.lookup p = none ∧
      ∀ q i j ndp nd, fs.resolve p = some (i, ndp) → fs.resolve q = some (j, nd) → j ≠ i →
        fs1.resolve q = some (j, nd) := by
  obtain ⟨hgone, hnode⟩ := osRemove_node env fs fs1 p h
  refine ⟨hgone, ?_⟩
  intro q i j ndp nd hp hq hji
  obtain ⟨r, hr, hnr⟩ := (resolve_eq_some fs q j nd).1 hq
  have hl : ∀ x, x ≠ p → fs1.linkTarget x = fs.linkTarget x := by
    intro x hx
    unfold FS.linkTarget
    rw [hnode x hx]
  have hsame : ∀ r1, fs.final p = some r1 → r1 ≠ r := by
    intro r1 h1 he
    have : fs.resolve p = some (j, nd) :=
      (resolve_eq_some fs p j nd).2 ⟨r1, h1, by rw [he]; exact hnr⟩
    rw [hp] at this
    exact hji (Prod.mk.inj (Option.some.inj this)).1.symm
  rcases followLinks_remove fs.linkTarget fs1.linkTarget p hl 40 q r hr with h1 | ⟨k, hk, h1⟩
  · have hrp : r ≠ p := by
      intro he
      have hend := followLinks_end fs.linkTarget 40 q r hr
      rw [he] at hend
      exact hsame p (followLinks_of_none _ 40 p hend) he.symm
    rw [resolve_eq_some]
    exact ⟨r, h1, by rw [hnode r hrp]; exact hnr⟩
  · exact absurd rfl (hsame r (followLinks_mono fs.linkTarget k 40 p r h1 hk))

/-! ## Theorems: the safe file mover -/

theorem returnAfterCreate_eq (env : Env) (inh out : File) (err : Option GoError) :
    returnAfterCreate env inh out err = err := by
  unfold returnAfterCreate deferredClose
  by_cases h : err = none
  · simp [h]
  · simp [h]

theorem copyFileContents_fst (env : Env) (fs : FS) (src dst : String) :
    (copyFileContents env fs src dst).1 = firstStepError env fs src dst := by
  unfold copyFileContents firstStepError
  cases h1 : osOpen env fs src with
  | error e => rfl
  | ok inh =>
    cases h2 : osCreate env fs dst with
    | error e => rfl
    | ok r =>
      obtain ⟨out, fs1⟩ := r
      simp only
      cases h3 : ioCopy env fs1 out inh with
      | mk r3 fs2 =>
        cases r3 with
        | none => simp [returnAfterCreate_eq]
        | some e => simp [returnAfterCreate_eq]

theorem osOpen_ok (env : Env) (fs : FS) (p : String) (f : File) (i : Nat) (nd : Inode)
    (hp : fs.resolve p = some (i, nd)) (h : osOpen env fs p = .ok f) :
    f.ino = i ∧ f.name = p := by
  obtain ⟨q, h0, h2⟩ := (resolve_eq_some fs p i nd).1 hp
  unfold osOpen at h
  cases h1 : env.openFile p with
  | some e => simp [h1] at h
  | none =>
    simp only [h1, h0, h2, Except.ok.injEq] at h
    subst h
    exact ⟨rfl, rfl⟩

theorem ioCopy_src (env : Env) (fs : FS) (out inh : File) (p : String) (i : Nat)
    (nd : Inode) (hp : fs.resolve p = some (i, nd)) (hne : out.ino ≠ i) :
    (ioCopy env fs out inh).2.resolve p = some (i, nd) := by
  unfold ioCopy
  cases h1 : fs.inodes.lookup inh.ino with
  | none => exact hp
  | some nd1 =>
    by_cases hd : IsDir nd1.mode = true
    · simp only [hd, if_true]
      exact hp
    · simp only [hd, Bool.false_eq_true, if_false]
      cases h2 : env.copy with
      | none => exact writeAll_other fs out _ p i nd hp hne
      | some r =>
        obtain ⟨n, e⟩ := r
        exact writeAll_other fs out _ p i nd hp hne

theorem ioCopy_ok (env : Env) (fs fs2 : FS) (out inh : File) (nd : Inode)
    (hin : fs.inodes.lookup inh.ino = some nd) (hreg : IsRegular nd.mode = true)
    (h : ioCopy env fs out inh = (none, fs2)) : fs2 = writeAll fs out nd.bytes := by
  unfold ioCopy at h
  have hd : IsDir nd.mode = false := regular_not_dir _ hreg
  simp only [hin, hd, Bool.false_eq_true, if_false] at h
  cases h2 : env.copy with
  | none =>
    simp only [h2, Prod.mk.injEq, true_and] at h
    exact h.symm
  | some r =>
    obtain ⟨n, e⟩ := r
    simp [h2] at h

theorem copyFileContents_src (env : Env) (fs : FS) (src dst : String) (i : Nat) (nd : Inode)
    (hsrc : fs.resolve src = some (i, nd))
    (hdist : ∀ j nd1, fs.resolve dst = some (j, nd1) → j ≠ i) :
    (copyFileContents env fs src dst).2.resolve src = some (i, nd) := by
  unfold copyFileContents
  cases h1 : osOpen env fs src with
  | error e => exact hsrc
  | ok inh =>
    cases h2 : osCreate env fs dst with
    | error e => exact hsrc
    | ok r =>
      obtain ⟨out, fs1⟩ := r
      obtain ⟨hs1, hne, _⟩ := osCreate_keeps env fs fs1 src dst out i nd hsrc hdist h2
      have h3 := ioCopy_src env fs1 out inh src i nd hs1 hne
      simp only
      cases h4 : ioCopy env fs1 out inh with
      | mk r3 fs2 =>
        rw [h4] at h3
        cases r3 with
        | none => exact h3
        | some e => exact h3

theorem copyFileContents_ok (env : Env) (fs fs2 : FS) (src dst : String) (i : Nat)
    (nd : Inode) (hsrc : fs.resolve src = some (i, nd)) (hreg : IsRegular nd.mode = true)
    (hdst : fs.resolve dst = none ∨
      ∃ j nd1, fs.resolve dst = some (j, nd1) ∧ IsRegular nd1.mode = true ∧ j ≠ i)
    (h : copyFileContents env fs src dst = (none, fs2)) :
    ∃ j nd2, fs2.resolve dst = some (j, nd2) ∧ IsRegular nd2.mode = true ∧
      nd2.bytes = nd.bytes ∧ j ≠ i := by
  have hdist : ∀ j nd1, fs.resolve dst = some (j, nd1) → j ≠ i := by
    intro j nd1 hj
    rcases hdst with h0 | ⟨j1, nd3, h0, _, hne⟩
    · rw [h0] at hj
      exact Option.noConfusion hj
    · rw [h0] at hj
      have := (Prod.mk.inj (Option.some.inj hj)).1
      rw [← this]
      exact hne
  have hdst1 : fs.resolve dst = none ∨
      ∃ j nd1, fs.resolve dst = some (j, nd1) ∧ IsRegular nd1.mode = true := by
    rcases hdst with h0 | ⟨j1, nd3, h0, hr, _⟩
    · exact Or.inl h0
    · exact Or.inr ⟨j1, nd3, h0, hr⟩
  unfold copyFileContents at h
  cases h1 : osOpen env fs src with
  | error e => simp [h1] at h
  | ok inh =>
    cases h2 : osCreate env fs dst with
    | error e => simp [h1, h2] at h
    | ok r =>
      obtain ⟨out, fs1⟩ := r
      obtain ⟨hs1, hne, _⟩ := osCreate_keeps env fs fs1 src dst out i nd hsrc hdist h2
      obtain ⟨nd0, hd1, hr0⟩ := osCreate_dst env fs fs1 dst out hdst1 h2
      obtain ⟨hino, _⟩ := osOpen_ok env fs src inh i nd hsrc h1
      have hin : fs1.inodes.lookup inh.ino = some nd := by
        rw [hino]
        exact resolve_inode fs1 src i nd hs1
      simp only [h1, h2] at h
      cases h4 : ioCopy env fs1 out inh with
      | mk r3 fs3 =>
        cases r3 with
        | some e => simp [h4, returnAfterCreate_eq] at h
        | none =>
          simp only [h4, returnAfterCreate_eq, Prod.mk.injEq] at h
          have hfs : fs3 = writeAll fs1 out nd.bytes := ioCopy_ok env fs1 fs3 out inh nd hin hreg h4
          rw [← h.2, hfs]
          exact ⟨out.ino, { nd0 with bytes := nd.bytes },
            writeAll_target fs1 out nd.bytes dst nd0 hd1 hr0, hr0, rfl, hne⟩

theorem copyFile_of_reaches (env : Env) (fs : FS) (src dst : String)
    (h : reachesCopy env fs src dst = true) :
    copyFile env fs src dst = copyThenRemove env fs src dst := by
  unfold reachesCopy at h
  unfold copyFile
  cases h1 : osStat env fs src with
  | error e => simp [h1] at h
  | ok sfi =>
    simp only [h1, Bool.and_eq_true] at h
    obtain ⟨hr, h2⟩ := h
    simp only [hr, not_true_eq_false, if_false]
    cases h3 : osStat env fs dst with
    | error e =>
      simp only [h3] at h2
      simp [h2]
    | ok dfi =>
      simp only [h3, Bool.and_eq_true, Bool.not_eq_true', ] at h2
      simp [h2.1, h2.2]

theorem copyFile_result_of_reaches (env : Env) (fs : FS) (src dst : String)
    (h : reachesCopy env fs src dst = true) :
    (copyFile env fs src dst).1 =
      match firstStepError env fs src dst with
      | some e => some e
      | none => (osRemove env (copyFileContents env fs src dst).2 src).1 := by
  rw [copyFile_of_reaches env fs src dst h, ← copyFileContents_fst]
  unfold copyThenRemove
  cases h1 : copyFileContents env fs src dst with
  | mk r fs1 =>
    cases r with
    | none => rfl
    | some e => rfl

theorem copyThenRemove_of_success (env : Env) (fs fs1 : FS) (src dst : String) (i : Nat)
    (nd : Inode) (hsrc : fs.resolve src = some (i, nd)) (hreg : IsRegular nd.mode = true)
    (hdst : fs.resolve dst = none ∨
      ∃ j nd1, fs.resolve dst = some (j, nd1) ∧ IsRegular nd1.mode = true ∧ j ≠ i)
    (hok : copyFile env fs src dst = (none, fs1)) :
    copyThenRemove env fs src dst = (none, fs1) := by
  unfold copyFile at hok
  cases h1 : osStat env fs src with
  | error e => simp [h1] at hok
  | ok sfi =>
    obtain ⟨nd0, hr0, hm0, _⟩ := osStat_ok env fs src sfi h1
    rw [hsrc] at hr0
    have hino : i = sfi.ino := (Prod.mk.inj (Option.some.inj hr0)).1
    have hnd : nd = nd0 := (Prod.mk.inj (Option.some.inj hr0)).2
    have hsreg : IsRegular sfi.Mode = true := by rw [hm0, ← hnd]; exact hreg
    simp only [h1, hsreg, not_true_eq_false, if_false] at hok
    cases h2 : osStat env fs dst with
    | error e =>
      simp only [h2] at hok
      by_cases hne : IsNotExist e = true
      · simpa [hne] using hok
      · simp [hne] at hok
    | ok dfi =>
      obtain ⟨nd1, hr1, hm1, _⟩ := osStat_ok env fs dst dfi h2
      rcases hdst with h0 | ⟨j, nd2, h0, hr2, hji⟩
      · rw [h0] at hr1
        exact Option.noConfusion hr1
      · rw [h0] at hr1
        have hj : j = dfi.ino := (Prod.mk.inj (Option.some.inj hr1)).1
        have hnd2 : nd2 = nd1 := (Prod.mk.inj (Option.some.inj hr1)).2
        have hdreg : IsRegular dfi.Mode = true := by rw [hm1, ← hnd2]; exact hr2
        have hsame : SameFile sfi dfi = false := by
          simp only [SameFile, beq_eq_false_iff_ne, ne_eq]
          rw [← hino, ← hj]
          exact fun h => hji h.symm
        simpa [h2, hdreg, hsame] using hok

theorem copyFile_succeeds (env : Env) (fs : FS) (src dst : String) (i : Nat) (nd : Inode)
    (hsrc : fs.resolve src = some (i, nd)) (hreg : IsRegular nd.mode = true)
    (hdst : (∃ q, fs.final dst = some q ∧ fs.node q = none) ∨
      ∃ j nd1, fs.resolve dst = some (j, nd1) ∧ IsRegular nd1.mode = true ∧ j ≠ i)
    (e1 : env.stat src = none) (e2 : env.stat dst = none) (e3 : env.openFile src = none)
    (e4 : env.create dst = none) (e5 : env.copy = none) (e6 : env.sync = none)
    (e7 : env.remove src = none) :
    (copyFile env fs src dst).1 = none := by
  have hdist : ∀ j nd1, fs.resolve dst = some (j, nd1) → j ≠ i := by
    intro j nd1 hj
    rcases hdst with ⟨q, h0, h1⟩ | ⟨j1, nd3, h0, _, hne⟩
    · simp [FS.resolve, h0, h1] at hj
    · rw [h0] at hj
      rw [← (Prod.mk.inj (Option.some.inj hj)).1]
      exact hne
  have hreach : reachesCopy env fs src dst = true := by
    unfold reachesCopy
    rw [osStat_of_resolve env fs src i nd hsrc e1]
    rcases hdst with ⟨q, h0, h1⟩ | ⟨j, nd1, h0, hr1, hne⟩
    · simp [osStat, e2, h0, h1, hreg, IsNotExist]
    · rw [osStat_of_resolve env fs dst j nd1 h0 e2]
      simp [hreg, hr1, SameFile, Ne.symm hne]
  have hopen : osOpen env fs src = .ok { name := src, ino := i } := by
    obtain ⟨q, h0, h2⟩ := (resolve_eq_some fs src i nd).1 hsrc
    simp [osOpen, e3, h0, h2]
  obtain ⟨out, fs1, hcreate⟩ : ∃ out fs1, osCreate env fs dst = .ok (out, fs1) := by
    unfold osCreate
    rcases hdst with ⟨q, h0, h1⟩ | ⟨j, nd1, h0, hr1, _⟩
    · simp [e4, h0, h1]
    · obtain ⟨q, h1, h2⟩ := (resolve_eq_some fs dst j nd1).1 h0
      simp [e4, h1, h2, hr1, regular_not_dir _ hr1]
  obtain ⟨hs1, hne, _⟩ := osCreate_keeps env fs fs1 src dst out i nd hsrc hdist hcreate
  have hin : fs1.inodes.lookup i = some nd := resolve_inode fs1 src i nd hs1
  have hcopy : ioCopy env fs1 out { name := src, ino := i } =
      (none, writeAll fs1 out nd.bytes) := by
    simp [ioCopy, hin, regular_not_dir _ hreg, e5]
  have hcontents : copyFileContents env fs src dst = (none, writeAll fs1 out nd.bytes) := by
    simp [copyFileContents, hopen, hcreate, hcopy, returnAfterCreate_eq, fileSync, e6]
  have hs2 := writeAll_other fs1 out nd.bytes src i nd hs1 hne
  have hname : ∃ k, (writeAll fs1 out nd.bytes).names.lookup src = some k := by
    cases h : (writeAll fs1 out nd.bytes).names.lookup src with
    | none =>
      rw [resolve_of_name_none _ src h] at hs2
      exact Option.noConfusion hs2
    | some k => exact ⟨k, rfl⟩
  obtain ⟨k, hk⟩ := hname
  rw [copyFile_of_reaches env fs src dst hreach]
  unfold copyThenRemove
  rw [hcontents]
  simp only [osRemove, e7, hk]
  split_ifs <;> rfl

theorem copyFile_nil_cases (env : Env) (fs : FS) (src dst : String)
    (h : (copyFile env fs src dst).1 = none) :
    (∃ sfi dfi, osStat env fs src = .ok sfi ∧ osStat env fs dst = .ok dfi ∧
        SameFile sfi dfi = true ∧ copyFile env fs src dst = (none, fs)) ∨
      (reachesCopy env fs src dst = true ∧ firstStepError env fs src dst = none ∧
        (osRemove env (copyFileContents env fs src dst).2 src).1 = none) := by
  by_cases hreach : reachesCopy env fs src dst = true
  · right
    rw [copyFile_result_of_reaches env fs src dst hreach] at h
    cases h1 : firstStepError env fs src dst with
    | some e => simp [h1] at h
    | none =>
      simp only [h1] at h
      exact ⟨hreach, rfl, h⟩
  · left
    unfold reachesCopy at hreach
    unfold copyFile at h ⊢
    cases h1 : osStat env fs src with
    | error e => simp [h1] at h
    | ok sfi =>
      by_cases hr : IsRegular sfi.Mode = true
      · simp only [h1, hr, Bool.true_and, not_true_eq_false, if_false] at h hreach ⊢
        cases h2 : osStat env fs dst with
        | error e =>
          simp only [h2] at h hreach
          simp [hreach] at h
        | ok dfi =>
          simp only [h2] at h hreach ⊢
          by_cases hd : IsRegular dfi.Mode = true
          · by_cases hs : SameFile sfi dfi = true
            · exact ⟨sfi, dfi, rfl, rfl, hs, by simp [hd, hs]⟩
            · simp [hd, hs] at hreach
          · simp [hd] at h
      · simp [h1, hr] at h

/-- C1: let `src` be a regular file with bytes `B` (reached directly or through symbolic
links), and `dst` be absent or a regular file on another inode than `src`, whatever its
bytes.  If `copyFile(src, dst)` returns nil, then afterwards `dst` is a regular file whose
bytes are exactly `B`, and `src` no longer exists. -/
theorem copyFile_moves (env : Env) (fs fs1 : FS) (src dst : String) (i : Nat) (nd : Inode)
    (B : List Nat) (hsrc : fs.resolve src = some (i, nd)) (hreg : IsRegular nd.mode = true)
    (hB : nd.bytes = B)
    (hdst : fs.resolve dst = none ∨
      ∃ j nd1, fs.resolve dst = some (j, nd1) ∧ IsRegular nd1.mode = true ∧ j ≠ i)
    (hok : copyFile env fs src dst = (none, fs1)) :
    (∃ j nd2, fs1.resolve dst = some (j, nd2) ∧ IsRegular nd2.mode = true ∧ nd2.bytes = B) ∧
      fs1.names.lookup src = none ∧ fs1.resolve src = none := by
  have hctr := copyThenRemove_of_success env fs fs1 src dst i nd hsrc hreg hdst hok
  have hdist : ∀ j nd1, fs.resolve dst = some (j, nd1) → j ≠ i := by
    intro j nd1 hj
    rcases hdst with h0 | ⟨j1, nd3, h0, _, hne⟩
    · rw [h0] at hj
      exact Option.noConfusion hj
    · rw [h0] at hj
      rw [← (Prod.mk.inj (Option.some.inj hj)).1]
      exact hne
  unfold copyThenRemove at hctr
  cases h1 : copyFileContents env fs src dst with
  | mk r fs2 =>
    cases r with
    | some e => simp [h1] at hctr
    | none =>
      simp only [h1] at hctr
      obtain ⟨j, nd2, hd2, hr2, hb2, hji⟩ :=
        copyFileContents_ok env fs fs2 src dst i nd hsrc hreg hdst h1
      have hs2 : fs2.resolve src = some (i, nd) := by
        have := copyFileContents_src env fs src dst i nd hsrc hdist
        rw [h1] at this
        exact this
      obtain ⟨hgone, hkeep⟩ := osRemove_ok env fs2 fs1 src hctr
      exact ⟨⟨j, nd2, hkeep dst i j nd nd2 hs2 hd2 hji, hr2, by rw [hb2, hB]⟩, hgone,
        resolve_of_name_none fs1 src hgone⟩

/-- Witness of C1: the upload of the example moved to a name that did not exist. -/
theorem copyFile_moves_witness :
    (∃ j nd2, demoFSMoved.resolve "/srv/files/orig-1unz.bin" = some (j, nd2) ∧
        IsRegular nd2.mode = true ∧ nd2.bytes = [10, 20, 30]) ∧
      demoFSMoved.names.lookup "/tmp/up123" = none ∧
      demoFSMoved.resolve "/tmp/up123" = none :=
  copyFile_moves demoEnv demoFS demoFSMoved "/tmp/up123" "/srv/files/orig-1unz.bin" 1
    { mode := 0o644, bytes := [10, 20, 30] } [10, 20, 30] (by decide) (by decide) rfl
    (Or.inl (by decide)) (by decide)

/-- C4: when `os.Stat` reports `src` as a regular file and reports `dst` as the same file
as `src` (same inode; in particular when `dst` is `src` itself), `copyFile(src, dst)`
returns nil and leaves the filesystem exactly as it was: nothing is copied, truncated or
deleted. -/
theorem copyFile_same_file (env : Env) (fs : FS) (src dst : String) (sfi dfi : FileInfo)
    (hs : osStat env fs src = .ok sfi) (hreg : IsRegular sfi.Mode = true)
    (hd : osStat env fs dst = .ok dfi) (hsame : SameFile sfi dfi = true) :
    copyFile env fs src dst = (none, fs) ∧ copyFile env fs src src = (none, fs) := by
  obtain ⟨nd0, hr0, hm0, _⟩ := osStat_ok env fs src sfi hs
  obtain ⟨nd1, hr1, hm1, _⟩ := osStat_ok env fs dst dfi hd
  have hino : sfi.ino = dfi.ino := by simpa [SameFile] using hsame
  have hnd : nd0 = nd1 := by
    have h0 := resolve_inode fs src sfi.ino nd0 hr0
    have h1 := resolve_inode fs dst dfi.ino nd1 hr1
    rw [hino, h1] at h0
    exact (Option.some.inj h0).symm
  have hdreg : IsRegular dfi.Mode = true := by rw [hm1, ← hnd, ← hm0]; exact hreg
  constructor
  · simp [copyFile, hs, hd, hreg, hdreg, hsame]
  · simp [copyFile, hs, hreg, SameFile]

/-- Witness of C4: the upload of the example and its second hard link. -/
theorem copyFile_same_file_witness :
    copyFile demoEnv demoFS "/tmp/up123" "/tmp/link" = (none, demoFS) ∧
      copyFile demoEnv demoFS "/tmp/up123" "/tmp/up123" = (none, demoFS) :=
  copyFile_same_file demoEnv demoFS "/tmp/up123" "/tmp/link"
    { Name := "up123", Mode := 0o644, ino := 1 } { Name := "link", Mode := 0o644, ino := 1 }
    rfl (by decide) rfl (by decide)

/-- When `os.Stat` reports that `src` exists and is not a regular file, `copyFile` returns
the error built from the format `CopyFile: non-regular source file %s (%q)` and leaves the
filesystem exactly as it was.  This covers directories, devices and links to them, not a
link to a regular file, which `os.Stat` reports as regular. -/
theorem copyFile_stat_non_regular (env : Env) (fs : FS) (src dst : String) (sfi : FileInfo)
    (hs : osStat env fs src = .ok sfi) (hn : IsRegular sfi.Mode = false) :
    copyFile env fs src dst =
      (some (GoError.Errorf "CopyFile: non-regular source file %s (%q)" sfi.Name sfi.Mode),
        fs) := by
  simp [copyFile, hs, hn]

/-- The storage directory of the example as the source is rejected. -/
theorem copyFile_directory_source :
    copyFile demoEnv demoFS "/srv/files" "/tmp/x" =
      (some (GoError.Errorf "CopyFile: non-regular source file %s (%q)" "files"
        (ModeDir ||| 0o755)), demoFS) :=
  copyFile_stat_non_regular demoEnv demoFS "/srv/files" "/tmp/x"
    { Name := "files", Mode := ModeDir ||| 0o755, ino := 3 } rfl (by decide)

/-- C5 fails on the code: `/tmp/uplink` is a symbolic link, not a regular file, yet
`copyFile` on it returns nil, having created the destination with the bytes of the file the
link points to and removed the link.  `os.Stat` follows the link, so the check of
`sfi.Mode().IsRegular()` sees the regular file behind it. -/
theorem symlink_source_is_copied :
    demoFSLink.node "/tmp/uplink" =
        some (5, { mode := ModeSymlink ||| 0o777, bytes := [], target := "/tmp/up123" }) ∧
      IsSymlink (ModeSymlink ||| 0o777) = true ∧
      IsRegular (ModeSymlink ||| 0o777) = false ∧
      copyFile demoEnv demoFSLink "/tmp/uplink" "/srv/files/orig-1unz.bin" =
        (none, demoFSLinkMoved) ∧
      demoFSLinkMoved ≠ demoFSLink := by
  decide

/-- C8: let `src` resolve to an inode and `dst` not resolve to that same inode.  If a run of
`copyFile(src, dst)` gets past its checks (so `src` is reported regular) and one of opening
`src`, creating `dst`, the streaming copy or the sync fails with an error, then `copyFile`
returns that error, `src` still resolves to the same inode with its mode and bytes
unchanged, and the run does not depend on what `os.Remove` would do. -/
theorem copyFile_step_failure (env : Env) (fs : FS) (src dst : String) (i : Nat) (nd : Inode)
    (e : GoError) (hsrc : fs.resolve src = some (i, nd))
    (hdist : ∀ j nd1, fs.resolve dst = some (j, nd1) → j ≠ i)
    (hreach : reachesCopy env fs src dst = true)
    (hfail : firstStepError env fs src dst = some e) :
    (copyFile env fs src dst).1 = some e ∧
      (copyFile env fs src dst).2.resolve src = some (i, nd) ∧
      IsRegular nd.mode = true ∧
      ∀ r, copyFile { env with remove := r } fs src dst = copyFile env fs src dst := by
  have hcf := copyFileContents_fst env fs src dst
  rw [hfail] at hcf
  have hsrc2 := copyFileContents_src env fs src dst i nd hsrc hdist
  have hres : copyFile env fs src dst = (some e, (copyFileContents env fs src dst).2) := by
    rw [copyFile_of_reaches env fs src dst hreach]
    unfold copyThenRemove
    cases h1 : copyFileContents env fs src dst with
    | mk r fs1 =>
      rw [h1] at hcf
      simp only at hcf
      subst hcf
      rfl
  have hregular : IsRegular nd.mode = true := by
    unfold reachesCopy at hreach
    cases h1 : osStat env fs src with
    | error e1 => simp [h1] at hreach
    | ok sfi =>
      obtain ⟨nd0, hr0, hm0, _⟩ := osStat_ok env fs src sfi h1
      rw [hsrc] at hr0
      have hnd : nd = nd0 := (Prod.mk.inj (Option.some.inj hr0)).2
      simp only [h1, Bool.and_eq_true] at hreach
      rw [hnd, ← hm0]
      exact hreach.1
  refine ⟨by rw [hres], by rw [hres]; exact hsrc2, hregular, ?_⟩
  intro r
  have hreach1 : reachesCopy { env with remove := r } fs src dst = true := hreach
  have hcf1 := copyFileContents_fst { env with remove := r } fs src dst
  have hfail1 : firstStepError { env with remove := r } fs src dst = some e := hfail
  rw [hfail1] at hcf1
  rw [hres, copyFile_of_reaches _ fs src dst hreach1]
  unfold copyThenRemove
  have hsame : copyFileContents { env with remove := r } fs src dst =
      copyFileContents env fs src dst := rfl
  rw [hsame] at hcf1 ⊢
  cases h1 : copyFileContents env fs src dst with
  | mk r1 fs1 =>
    rw [h1] at hcf1
    simp only at hcf1
    subst hcf1
    rfl

/-- Witness of C8: the disk fills up after two bytes while the upload of the example is
copied over the older stored file. -/
theorem copyFile_step_failure_witness :
    (copyFile demoEnvDiskFull demoFS "/tmp/up123" "/srv/files/old.bin").1 =
        some (GoError.PathError "write" "/srv/files/old.bin" Errno.ENOSPC) ∧
      (copyFile demoEnvDiskFull demoFS "/tmp/up123" "/srv/files/old.bin").2.resolve
          "/tmp/up123" = some (1, { mode := 0o644, bytes := [10, 20, 30] }) ∧
      IsRegular (0o644 : FileMode) = true ∧
      ∀ r, copyFile { demoEnvDiskFull with remove := r } demoFS "/tmp/up123"
          "/srv/files/old.bin" =
        copyFile demoEnvDiskFull demoFS "/tmp/up123" "/srv/files/old.bin" :=
  copyFile_step_failure demoEnvDiskFull demoFS "/tmp/up123" "/srv/files/old.bin" 1
    { mode := 0o644, bytes := [10, 20, 30] }
    (GoError.PathError "write" "/srv/files/old.bin" Errno.ENOSPC) (by decide)
    (by
      intro j nd1 h
      have h2 : demoFS.resolve "/srv/files/old.bin" = some (2, { mode := 0o600, bytes := [7] }) := by
        decide
      rw [h2] at h
      rw [← (Prod.mk.inj (Option.some.inj h)).1]
      decide)
    (by decide) (by decide)

/-- C9 fails on the code: in a run where every primitive succeeds except that closing the
destination reports an error, `copyFile` returns nil, having removed the source.  The
deferred closure of `copyFileContents` stores the error of `Close` in the local variable
`err`, after the `return` statement has already set the unnamed result. -/
theorem close_error_is_dropped :
    fileClose demoEnvCloseFails.closeOut { name := "/srv/files/orig-1unz.bin", ino := 4 } =
        some (GoError.PathError "close" "/srv/files/orig-1unz.bin" Errno.EDQUOT) ∧
      (deferredClose demoEnvCloseFails { name := "/srv/files/orig-1unz.bin", ino := 4 }
          { result := none, err := none }) =
        { result := none,
          err := some (GoError.PathError "close" "/srv/files/orig-1unz.bin" Errno.EDQUOT) } ∧
      copyFile demoEnvCloseFails demoFS "/tmp/up123" "/srv/files/orig-1unz.bin" =
        (none, demoFSMoved) := by
  decide

end Coquelicot
